import Mathlib

set_option maxRecDepth 4096

/-!
Shallow embedding of the chained-chunk configuration buffer in
`sys/dev/netmap/netmap_config.c` (the `WITH_NMCONF` core).

Modelling conventions:
* A `struct nm_confbuf_data` chunk is a `Seg`: its mutable `size` field and
  the allocated `data[]` array (a list of byte values; the allocation size is
  `data.length`, which never changes, while `size` may be truncated).
* A `struct netmap_confbuf` is a `Confbuf`.  The chain hanging off `readp`
  is the list `segs` (head = `readp`, links = list order); `writep` is the
  alias pointer into that same chain, represented as an index `wIdx` into
  `segs` (`none` = NULL).  `next_r`, `next_w`, `n_data` are verbatim.
* `malloc` is assumed to succeed (`M_NOWAIT` failure is an environment
  condition orthogonal to every claim); byte values are `Nat`s (the C code
  only ever moves bytes around and compares nothing but the NUL case, for
  which signedness of `char` is irrelevant).
* All counters fit comfortably below `2 ^ 32` in every state a theorem
  quantifies over, so `u_int` arithmetic is plain `Nat` arithmetic there;
  theorems about fully arbitrary states carry explicit bound hypotheses
  where a `u_int` subtraction or addition could otherwise wrap.
* Where the C code dereferences a NULL or dangling pointer (undefined
  behaviour, e.g. `post_write` with `writep == NULL`), the model leaves the
  state unchanged; no theorem depends on those branches.
-/

def NM_CBDATASIZ : Nat := 1024

def NM_CBDATAMAX : Nat := 4

/-- One `struct nm_confbuf_data` chunk: the mutable `size` field plus the
contents of the `data[]` flexible array member (whose allocated length is
`data.length` and never changes). -/
structure Seg where
  size : Nat
  data : List Nat
deriving DecidableEq, Repr

/-- A `struct netmap_confbuf`: the chain from `readp` onward (`segs`), the
read offset `next_r`, the write pointer `writep` as an index into `segs`
(`none` = NULL), the write offset `next_w`, and the live-chunk count
`n_data`. -/
structure Confbuf where
  segs : List Seg
  next_r : Nat
  wIdx : Option Nat
  next_w : Nat
  n_data : Nat
deriving DecidableEq, Repr

/-- The all-zero `struct netmap_confbuf` (fresh, or after `memset` in
`netmap_confbuf_destroy`). -/
def emptyConfbuf : Confbuf := ⟨[], 0, none, 0, 0⟩

/-- Result of `netmap_confbuf_pre_write`: `none` is a NULL return; otherwise
the (possibly grown) buffer, the returned pointer as (chunk index, byte
offset `b` in that chunk), and the granted size (`*avl_size`, or the size
implied when `avl_size` is NULL).  The `avl : Bool` argument encodes whether
the caller passed a non-NULL `avl_size`. -/
def netmap_confbuf_pre_write (cb : Confbuf) (req : Nat) (avl : Bool) :
    Option (Confbuf × Nat × Nat × Nat) :=
  let s0 : Nat :=
    match cb.wIdx with
    | some i =>
      match cb.segs[i]? with
      | some d => d.size - cb.next_w
      | none => 0
    | none => 0
  if 0 < s0 ∧ (req ≤ s0 ∨ avl = true) then
    some (cb, cb.wIdx.getD 0, cb.next_w, if req < s0 then req else s0)
  else if NM_CBDATAMAX ≤ cb.n_data then
    none
  else
    let scap := if NM_CBDATASIZ < req ∧ avl = false then req else NM_CBDATASIZ
    let nd : Seg := ⟨scap, List.replicate scap 0⟩
    let segsIdx : List Seg × Nat :=
      match cb.wIdx with
      | some i =>
        match cb.segs[i]? with
        | some d => (cb.segs.take i ++ [⟨cb.next_w, d.data⟩] ++ [nd], i + 1)
        | none => (cb.segs ++ [nd], cb.segs.length)
      | none => (cb.segs ++ [nd], cb.segs.length)
    let cb1 : Confbuf :=
      { cb with segs := segsIdx.1, n_data := cb.n_data + 1 }
    let cb2 : Confbuf := if cb.segs.isEmpty then { cb1 with wIdx := some 0 } else cb1
    some (cb2, segsIdx.2, 0, if req < scap then req else scap)

/-- `netmap_confbuf_post_write`: if `next_w` already equals the current
write chunk's `size`, roll `writep` to its successor with offset 0; then
advance `next_w` by `size`. -/
def netmap_confbuf_post_write (cb : Confbuf) (size : Nat) : Confbuf :=
  let cb1 :=
    match cb.wIdx with
    | some i =>
      match cb.segs[i]? with
      | some d =>
        if cb.next_w = d.size then
          { cb with
            wIdx := if i + 1 < cb.segs.length then some (i + 1) else none,
            next_w := 0 }
        else cb
      | none => cb
    | none => cb
  { cb1 with next_w := cb1.next_w + size }

/-- Walk of `netmap_confbuf_pre_read` over the chain: starting chunk list,
current offset `n`, requested size; returns (chunk index, offset, granted
size) or `none` (NULL, `*size = 0`). -/
def pre_readAux : List Seg → Nat → Nat → Nat → Option (Nat × Nat × Nat)
  | [], _, _, _ => none
  | d :: rest, n, req, idx =>
    if n < d.size then
      some (idx, n, if req < d.size - n then req else d.size - n)
    else pre_readAux rest 0 req (idx + 1)

/-- `netmap_confbuf_pre_read` starting from `readp`/`next_r`. -/
def netmap_confbuf_pre_read (cb : Confbuf) (req : Nat) : Option (Nat × Nat × Nat) :=
  pre_readAux cb.segs cb.next_r req 0

/-- `netmap_confbuf_post_read`: if `next_r` already equals the head chunk's
`size`, free the head, advance `readp`, reset `next_r` to 0 and decrement
`n_data`; then advance `next_r` by `size`.  Freeing the head shifts the
`writep` index down by one (a `writep` that pointed at the freed head
becomes dangling, modelled as `none`). -/
def netmap_confbuf_post_read (cb : Confbuf) (size : Nat) : Confbuf :=
  let cb1 :=
    match cb.segs with
    | [] => cb
    | d :: rest =>
      if cb.next_r = d.size then
        { cb with
          segs := rest, next_r := 0, n_data := cb.n_data - 1,
          wIdx :=
            match cb.wIdx with
            | some (i + 1) => some i
            | some 0 => none
            | none => none }
      else cb
  { cb1 with next_r := cb1.next_r + size }

/-- Byte stored at chunk `i`, offset `off` (the C dereference `*(char *)p`). -/
def byteAt (cb : Confbuf) (i off : Nat) : Nat :=
  ((cb.segs[i]?).map fun d => d.data.getD off 0).getD 0

/-- `netmap_confbuf_peek`: a one-byte `pre_read`; returns 0 when the stream
is empty, else the next unread byte.  It writes nothing through `cb`, so the
returned state is the argument itself. -/
def netmap_confbuf_peek (cb : Confbuf) : Nat × Confbuf :=
  match netmap_confbuf_pre_read cb 1 with
  | none => (0, cb)
  | some (i, off, _) => (byteAt cb i off, cb)

/-- `netmap_confbuf_consume`: a one-byte `post_read`. -/
def netmap_confbuf_consume (cb : Confbuf) : Confbuf :=
  netmap_confbuf_post_read cb 1

/-- `netmap_confbuf_destroy` frees the whole chain from `readp` and clears
the structure. -/
def netmap_confbuf_destroy (_cb : Confbuf) : Confbuf := emptyConfbuf

/-- Overwrite `src.length` bytes of `l` starting at offset `off` (the effect
of `uiomove` into a granted region). -/
def patchList (l : List Nat) (off : Nat) (src : List Nat) : List Nat :=
  l.take off ++ src ++ l.drop (off + src.length)

/-- `uiomove` into the granted region: copy `src` into chunk `i` at offset
`off`. -/
def moveIn (cb : Confbuf) (i off : Nat) (src : List Nat) : Confbuf :=
  match cb.segs[i]? with
  | some d =>
    { cb with segs := cb.segs.set i { d with data := patchList d.data off src } }
  | none => cb

/-- `uiomove` out of a granted read region: the `len` bytes of chunk `i`
starting at offset `off`. -/
def sliceAt (cb : Confbuf) (i off len : Nat) : List Nat :=
  ((cb.segs[i]?).map fun d => (d.data.drop off).take len).getD []

/-- Bytes served by repeated `pre_read` from a chunk list with initial
offset `n`: each chunk contributes `data` up to `size`, past the offset. -/
def readableSegs : List Seg → Nat → List Nat
  | [], _ => []
  | d :: rest, n => (d.data.take d.size).drop n ++ readableSegs rest 0

/-- Bytes currently served by the read side of a buffer. -/
def readable (cb : Confbuf) : List Nat := readableSegs cb.segs cb.next_r

/-- Failure modes of the device calls: `ENOMEM` from `pre_write`, a
`uiomove` fault, or model fuel exhaustion (proved unreachable wherever it
matters). -/
inductive Err where
  | enomem : Err
  | efault : Err
  | fuel : Err
deriving DecidableEq, Repr

/-- The `while (uio->uio_resid > 0)` loop of `netmap_config_write` on one
buffer.  `bytes` is the unconsumed part of the transfer (`uio_resid` is its
length), `sched k` tells whether the `k`-th `uiomove` succeeds (a `false`
models a transfer fault, which moves nothing and aborts), and `fuel` bounds
the iteration count.  Returns (error, buffer, bytes still unconsumed). -/
def writeLoopF : Nat → (Nat → Bool) → Nat → Confbuf → List Nat →
    Option Err × Confbuf × List Nat
  | 0, _, _, cb, bytes =>
    if bytes = [] then (none, cb, bytes) else (some .fuel, cb, bytes)
  | fuel + 1, sched, k, cb, bytes =>
    if bytes = [] then (none, cb, bytes)
    else
      match netmap_confbuf_pre_write cb bytes.length true with
      | none => (some .enomem, cb, bytes)
      | some (cb1, i, b, s) =>
        if sched k then
          let cb2 := moveIn cb1 i b (bytes.take s)
          let cb3 := netmap_confbuf_post_write cb2 s
          writeLoopF fuel sched (k + 1) cb3 (bytes.drop s)
        else (some .efault, cb1, bytes)

/-- The `while (uio->uio_resid > 0)` loop of `netmap_config_read` on one
buffer; `resid` is the transport's remaining capacity.  Returns (error,
bytes delivered, buffer). -/
def readLoopF : Nat → (Nat → Bool) → Nat → Confbuf → Nat →
    Option Err × List Nat × Confbuf
  | 0, _, _, cb, resid =>
    if resid = 0 then (none, [], cb) else (some .fuel, [], cb)
  | fuel + 1, sched, k, cb, resid =>
    if resid = 0 then (none, [], cb)
    else
      match netmap_confbuf_pre_read cb resid with
      | none => (none, [], cb)
      | some (i, off, s) =>
        if sched k then
          let chunk := sliceAt cb i off s
          let cb1 := netmap_confbuf_post_read cb s
          let r := readLoopF fuel sched (k + 1) cb1 (resid - s)
          (r.1, chunk ++ r.2.1, r.2.2)
        else (some .efault, [], cb)

/-- A `struct netmap_config`: `buf[0]` is the input buffer, `buf[1]` the
output buffer.  The mutex serialises calls and is not part of the state. -/
structure NMConfig where
  bufI : Confbuf
  bufO : Confbuf
deriving DecidableEq, Repr

/-- `netmap_config_parse` has an empty body. -/
def netmap_config_parse (c : NMConfig) : NMConfig := c

/-- `netmap_config_write`: destroy the output buffer, then drain the
transfer into the input buffer.  Returns (error, channel, unconsumed
bytes). -/
def netmap_config_write (c : NMConfig) (bytes : List Nat) (sched : Nat → Bool) :
    Option Err × NMConfig × List Nat :=
  let o1 := netmap_confbuf_destroy c.bufO
  let r := writeLoopF bytes.length sched 0 c.bufI bytes
  (r.1, ⟨r.2.1, o1⟩, r.2.2)

/-- `netmap_config_read`: run the parse step, then drain the output buffer
into the transfer.  Returns (error, bytes delivered, channel). -/
def netmap_config_read (c : NMConfig) (resid : Nat) (sched : Nat → Bool) :
    Option Err × List Nat × NMConfig :=
  let c1 := netmap_config_parse c
  let r := readLoopF resid sched 0 c1.bufO resid
  (r.1, r.2.1, ⟨c1.bufI, r.2.2⟩)

/-- A sequence of `write()` calls (all `uiomove`s succeeding) against one
buffer, starting from `cb`; `none` as soon as one call fails. -/
def runWrites : List (List Nat) → Confbuf → Option Confbuf
  | [], cb => some cb
  | w :: ws, cb =>
    match writeLoopF w.length (fun _ => true) 0 cb w with
    | (none, cb1, _) => runWrites ws cb1
    | (some _, _, _) => none

/-! ## Order of operations in the commit calls (claims C2, C3)

The spec describes `commit_write`/`commit_read` as advance-then-check; the
source checks first (against the pre-advance offset) and then advances.
The following two definitions transcribe the claimed order, for
comparison with the source functions. -/

/-- Claimed order for `commit_write`: first advance `write_offset` by
`size` within the current tail, then, if the tail is now exactly exhausted,
roll the write cursor to the tail's successor with offset 0. -/
def post_write_claimOrder (cb : Confbuf) (size : Nat) : Confbuf :=
  let cb1 := { cb with next_w := cb.next_w + size }
  match cb1.wIdx with
  | some i =>
    match cb1.segs[i]? with
    | some d =>
      if cb1.next_w = d.size then
        { cb1 with
          wIdx := if i + 1 < cb1.segs.length then some (i + 1) else none,
          next_w := 0 }
      else cb1
    | none => cb1
  | none => cb1

/-- Claimed order for `commit_read`: first advance `read_offset` by `size`,
then, if it now equals the head's logical size, free the head, advance
`readp`, reset the offset and decrement `n_data`. -/
def post_read_claimOrder (cb : Confbuf) (size : Nat) : Confbuf :=
  let cb1 := { cb with next_r := cb.next_r + size }
  match cb1.segs with
  | [] => cb1
  | d :: rest =>
    if cb1.next_r = d.size then
      { cb1 with
        segs := rest, next_r := 0, n_data := cb1.n_data - 1,
        wIdx :=
          match cb1.wIdx with
          | some (i + 1) => some i
          | some 0 => none
          | none => none }
    else cb1

/-- C2 counterexample: in the state with one 4-byte chunk and
`next_w = 2`, a matching `pre_write` of 2 bytes grants the 2 free bytes
without allocating, and the following `post_write 2` leaves
`next_w = 4` with the write cursor still on the same chunk — whereas the
claimed advance-then-check order would roll the cursor (to the
non-existent successor) and reset the offset to 0.  The advance therefore
happens after the exhaustion check, not before. -/
theorem post_write_order_cex :
    netmap_confbuf_pre_write ⟨[⟨4, [9, 9, 0, 0]⟩], 0, some 0, 2, 1⟩ 2 true
      = some (⟨[⟨4, [9, 9, 0, 0]⟩], 0, some 0, 2, 1⟩, 0, 2, 2) ∧
    (netmap_confbuf_post_write ⟨[⟨4, [9, 9, 0, 0]⟩], 0, some 0, 2, 1⟩ 2).next_w = 4 ∧
    (netmap_confbuf_post_write ⟨[⟨4, [9, 9, 0, 0]⟩], 0, some 0, 2, 1⟩ 2).wIdx = some 0 ∧
    (post_write_claimOrder ⟨[⟨4, [9, 9, 0, 0]⟩], 0, some 0, 2, 1⟩ 2).next_w = 0 ∧
    netmap_confbuf_post_write ⟨[⟨4, [9, 9, 0, 0]⟩], 0, some 0, 2, 1⟩ 2
      ≠ post_write_claimOrder ⟨[⟨4, [9, 9, 0, 0]⟩], 0, some 0, 2, 1⟩ 2 := by
  decide

/-- C2 (amended): `commit_write` first checks whether `write_offset`
already equals the current tail's size — which happens exactly when an
earlier commit filled the tail and a subsequent `prepare_write` linked a
successor — and if so rolls the cursor to the successor with offset 0;
only then does it advance `write_offset` by `size`. -/
theorem post_write_checks_exhaustion_first (cb : Confbuf) (i : Nat) (d : Seg)
    (size : Nat) (hw : cb.wIdx = some i) (hd : cb.segs[i]? = some d) :
    (cb.next_w = d.size →
      netmap_confbuf_post_write cb size =
        { cb with
          wIdx := if i + 1 < cb.segs.length then some (i + 1) else none,
          next_w := size }) ∧
    (cb.next_w ≠ d.size →
      netmap_confbuf_post_write cb size = { cb with next_w := cb.next_w + size }) := by
  constructor <;> intro h <;> simp [netmap_confbuf_post_write, hw, hd, h]

/-- Witness for `post_write_checks_exhaustion_first` at a concrete state. -/
theorem post_write_checks_exhaustion_first_witness :
    netmap_confbuf_post_write ⟨[⟨4, [9, 9, 0, 0]⟩], 0, some 0, 2, 1⟩ 2
      = { (⟨[⟨4, [9, 9, 0, 0]⟩], 0, some 0, 2, 1⟩ : Confbuf) with next_w := 2 + 2 } :=
  (post_write_checks_exhaustion_first ⟨[⟨4, [9, 9, 0, 0]⟩], 0, some 0, 2, 1⟩ 0
    ⟨4, [9, 9, 0, 0]⟩ 2 rfl rfl).2 (by decide)

/-- C3 counterexample: with one 2-byte chunk fully unread, `pre_read`
serves both bytes, and the `post_read 2` that fully drains the chunk frees
nothing — the chunk stays in the chain and `n_data` stays 1 — whereas the
claimed behaviour frees the chunk and decrements `n_data` on that same
call. -/
theorem post_read_order_cex :
    netmap_confbuf_pre_read ⟨[⟨2, [7, 7]⟩], 0, some 0, 2, 1⟩ 2 = some (0, 0, 2) ∧
    (netmap_confbuf_post_read ⟨[⟨2, [7, 7]⟩], 0, some 0, 2, 1⟩ 2).n_data = 1 ∧
    (netmap_confbuf_post_read ⟨[⟨2, [7, 7]⟩], 0, some 0, 2, 1⟩ 2).segs = [⟨2, [7, 7]⟩] ∧
    (post_read_claimOrder ⟨[⟨2, [7, 7]⟩], 0, some 0, 2, 1⟩ 2).n_data = 0 ∧
    netmap_confbuf_post_read ⟨[⟨2, [7, 7]⟩], 0, some 0, 2, 1⟩ 2
      ≠ post_read_claimOrder ⟨[⟨2, [7, 7]⟩], 0, some 0, 2, 1⟩ 2 := by
  decide

/-- C3 (amended): a `commit_read` that fully drains the head chunk leaves
the chain and `n_data` untouched, merely bringing `read_offset` up to the
head's size; the head is freed, `readp` advanced, the offset reset and
`n_data` decremented on the next `commit_read` call (the check precedes
the advance). -/
theorem post_read_frees_on_following_call (cb : Confbuf) (d : Seg)
    (rest : List Seg) (size size2 : Nat) (hs : cb.segs = d :: rest)
    (hne : cb.next_r ≠ d.size) (hfill : cb.next_r + size = d.size) :
    (netmap_confbuf_post_read cb size).n_data = cb.n_data ∧
    (netmap_confbuf_post_read cb size).segs = cb.segs ∧
    (netmap_confbuf_post_read cb size).next_r = d.size ∧
    (netmap_confbuf_post_read (netmap_confbuf_post_read cb size) size2).segs = rest ∧
    (netmap_confbuf_post_read (netmap_confbuf_post_read cb size) size2).n_data
      = cb.n_data - 1 ∧
    (netmap_confbuf_post_read (netmap_confbuf_post_read cb size) size2).next_r
      = size2 := by
  have h1 : netmap_confbuf_post_read cb size =
      { cb with next_r := cb.next_r + size } := by
    simp [netmap_confbuf_post_read, hs, hne]
  rw [h1]
  refine ⟨rfl, rfl, hfill, ?_, ?_, ?_⟩ <;>
    simp [netmap_confbuf_post_read, hs, hfill]

/-- Witness for `post_read_frees_on_following_call` at a concrete state. -/
theorem post_read_frees_on_following_call_witness :
    (netmap_confbuf_post_read ⟨[⟨2, [7, 7]⟩], 0, some 0, 2, 1⟩ 2).n_data = 1 ∧
    (netmap_confbuf_post_read
        (netmap_confbuf_post_read ⟨[⟨2, [7, 7]⟩], 0, some 0, 2, 1⟩ 2) 0).n_data
      = 1 - 1 :=
  ⟨(post_read_frees_on_following_call ⟨[⟨2, [7, 7]⟩], 0, some 0, 2, 1⟩ ⟨2, [7, 7]⟩
      [] 2 0 rfl (by decide) rfl).1,
   (post_read_frees_on_following_call ⟨[⟨2, [7, 7]⟩], 0, some 0, 2, 1⟩ ⟨2, [7, 7]⟩
      [] 2 0 rfl (by decide) rfl).2.2.2.2.1⟩

/-! ## Empty output buffer on read (claim C7) -/

/-- Whether `pre_read`'s walk comes up empty does not depend on the
requested size or the index accumulator. -/
theorem pre_readAux_none_iff (segs : List Seg) (n req1 req2 idx1 idx2 : Nat) :
    (pre_readAux segs n req1 idx1 = none ↔ pre_readAux segs n req2 idx2 = none) := by
  induction segs generalizing n idx1 idx2 with
  | nil => simp [pre_readAux]
  | cons d rest ih =>
    by_cases h : n < d.size
    · simp [pre_readAux, h]
    · simpa [pre_readAux, h] using ih 0 (idx1 + 1) (idx2 + 1)

/-- C7: when the output buffer has nothing to serve (`pre_read` returns the
zero-length NULL region), `netmap_config_read` delivers nothing, leaves the
channel untouched, and returns 0 — success, not an error — whatever the
transport's residual count and fault behaviour. -/
theorem config_read_empty_returns_ok (c : NMConfig) (n : Nat) (sched : Nat → Bool)
    (h : netmap_confbuf_pre_read c.bufO 1 = none) :
    netmap_config_read c n sched = (none, [], c) := by
  unfold netmap_config_read netmap_config_parse
  cases n with
  | zero => simp [readLoopF]
  | succ m =>
    have h2 : netmap_confbuf_pre_read c.bufO (m + 1) = none := by
      unfold netmap_confbuf_pre_read at h ⊢
      exact (pre_readAux_none_iff c.bufO.segs c.bufO.next_r (m + 1) 1 0 0).mpr h
    simp [readLoopF, h2]

/-- Witness for `config_read_empty_returns_ok` on a fresh channel. -/
theorem config_read_empty_returns_ok_witness :
    netmap_config_read ⟨emptyConfbuf, emptyConfbuf⟩ 3 (fun _ => true)
      = (none, [], ⟨emptyConfbuf, emptyConfbuf⟩) :=
  config_read_empty_returns_ok ⟨emptyConfbuf, emptyConfbuf⟩ 3 (fun _ => true) rfl

/-! ## Write discards the output buffer (claim C9) -/

/-- C9: every `netmap_config_write` call leaves the output buffer in the
destroyed (empty) state whatever happens afterwards; the input buffer's
evolution and the returned status are exactly those of the write loop on
the input buffer alone; and two channels agreeing on the input buffer are
indistinguishable to `write`, so the discarded prior output can influence
nothing. -/
theorem config_write_discards_output :
    (∀ (c : NMConfig) (bytes : List Nat) (sched : Nat → Bool),
      (netmap_config_write c bytes sched).2.1.bufO = emptyConfbuf) ∧
    (∀ (c : NMConfig) (bytes : List Nat) (sched : Nat → Bool),
      (netmap_config_write c bytes sched).2.1.bufI
          = (writeLoopF bytes.length sched 0 c.bufI bytes).2.1 ∧
      (netmap_config_write c bytes sched).1
          = (writeLoopF bytes.length sched 0 c.bufI bytes).1) ∧
    (∀ (c c' : NMConfig) (bytes : List Nat) (sched : Nat → Bool), c.bufI = c'.bufI →
      netmap_config_write c bytes sched = netmap_config_write c' bytes sched) := by
  refine ⟨fun c bytes sched => rfl, fun c bytes sched => ⟨rfl, rfl⟩,
    fun c c' bytes sched h => ?_⟩
  simp [netmap_config_write, netmap_confbuf_destroy, h]

/-- Witness for `config_write_discards_output`: two channels whose output
buffers differ (one holds an unread parse result) are written identically. -/
theorem config_write_discards_output_witness :
    netmap_config_write ⟨emptyConfbuf, ⟨[⟨1, [5]⟩], 0, some 0, 1, 1⟩⟩ [3] (fun _ => true)
      = netmap_config_write ⟨emptyConfbuf, emptyConfbuf⟩ [3] (fun _ => true) :=
  config_write_discards_output.2.2 ⟨emptyConfbuf, ⟨[⟨1, [5]⟩], 0, some 0, 1, 1⟩⟩
    ⟨emptyConfbuf, emptyConfbuf⟩ [3] (fun _ => true) rfl

/-! ## Peek cannot distinguish NUL from end-of-stream (claim C10) -/

/-- C10: `peek` returns the integer 0 both on the empty stream (where
`pre_read` yields no region) and on a stream whose next unread byte is the
NUL byte (written through the ordinary write path), so the two situations
are indistinguishable from `peek`'s return value. -/
theorem peek_zero_ambiguous :
    (netmap_confbuf_peek emptyConfbuf).1 = 0 ∧
    netmap_confbuf_pre_read emptyConfbuf 1 = none ∧
    (netmap_confbuf_peek (writeLoopF 1 (fun _ => true) 0 emptyConfbuf [0]).2.1).1 = 0 ∧
    netmap_confbuf_pre_read (writeLoopF 1 (fun _ => true) 0 emptyConfbuf [0]).2.1 1
      ≠ none ∧
    (readable (writeLoopF 1 (fun _ => true) 0 emptyConfbuf [0]).2.1).headD 1 = 0 := by
  decide

/-! ## Canonical states produced by the write path

Every buffer reachable from empty through `write()` calls (which always
pass a non-NULL `avl_size`) consists of `NM_CBDATASIZ`-sized chunks holding
the committed bytes in order, padded with the allocator's fill in the last
chunk.  `toSegsN k bs` builds that chain (`k` = chunk count), and `WS bs cb`
says `cb` is exactly the canonical state holding committed bytes `bs`. -/

/-- A 1024-capacity chunk whose committed prefix is `l`. -/
def padSeg (l : List Nat) : Seg :=
  ⟨1024, l ++ List.replicate (1024 - l.length) 0⟩

/-- Chain of `k` chunks of capacity 1024 holding `bs` (last chunk padded). -/
def toSegsN : Nat → List Nat → List Seg
  | 0, _ => []
  | k + 1, bs =>
    if bs.length ≤ 1024 then [padSeg bs]
    else padSeg (bs.take 1024) :: toSegsN k (bs.drop 1024)

/-- Canonical state of a buffer into which exactly `bs` has been committed
through the write path: `k` full chunks plus a last chunk with `m` committed
bytes (`1 ≤ m ≤ 1024`), write cursor on the last chunk at offset `m`,
nothing yet read. -/
def WS (bs : List Nat) (cb : Confbuf) : Prop :=
  (bs = [] ∧ cb = emptyConfbuf) ∨
  (∃ k m, bs.length = 1024 * k + m ∧ 1 ≤ m ∧ m ≤ 1024 ∧
    cb = ⟨toSegsN (k + 1) bs, 0, some k, m, k + 1⟩)

/-- States left behind by an aborted `write()`: either a canonical state, or
a canonical state to which `pre_write` has just linked a fresh empty chunk
(the write cursor still parked at the end of the previous chunk). -/
def WSP (bs : List Nat) (cb : Confbuf) : Prop :=
  WS bs cb ∨
  (bs = [] ∧ cb = ⟨[⟨1024, List.replicate 1024 0⟩], 0, some 0, 0, 1⟩) ∨
  (∃ k, bs.length = 1024 * (k + 1) ∧ k + 1 ≤ 3 ∧
    cb = ⟨toSegsN (k + 1) bs ++ [⟨1024, List.replicate 1024 0⟩], 0, some k, 1024, k + 2⟩)

theorem padSeg_data_length {l : List Nat} (h : l.length ≤ 1024) :
    (padSeg l).data.length = 1024 := by
  simp [padSeg]; omega

theorem toSegsN_succ (k : Nat) (bs : List Nat) :
    toSegsN (k + 1) bs =
      if bs.length ≤ 1024 then [padSeg bs]
      else padSeg (bs.take 1024) :: toSegsN k (bs.drop 1024) := rfl

theorem toSegsN_length {k : Nat} : ∀ {m : Nat} {bs : List Nat},
    bs.length = 1024 * k + m → 1 ≤ m → m ≤ 1024 →
    (toSegsN (k + 1) bs).length = k + 1 := by
  induction k with
  | zero =>
    intro m bs h h1 h2
    have hle : bs.length ≤ 1024 := by omega
    rw [toSegsN_succ, if_pos hle]
    rfl
  | succ k ih =>
    intro m bs h h1 h2
    have hgt : ¬ bs.length ≤ 1024 := by omega
    have hd : (bs.drop 1024).length = 1024 * k + m := by simp; omega
    rw [toSegsN_succ, if_neg hgt, List.length_cons, ih hd h1 h2]

theorem toSegsN_getLast {k : Nat} : ∀ {m : Nat} {bs : List Nat},
    bs.length = 1024 * k + m → 1 ≤ m → m ≤ 1024 →
    (toSegsN (k + 1) bs)[k]? = some (padSeg (bs.drop (1024 * k))) := by
  induction k with
  | zero =>
    intro m bs h h1 h2
    have hle : bs.length ≤ 1024 := by omega
    rw [toSegsN_succ, if_pos hle]
    simp
  | succ k ih =>
    intro m bs h h1 h2
    have hgt : ¬ bs.length ≤ 1024 := by omega
    have hd : (bs.drop 1024).length = 1024 * k + m := by simp; omega
    rw [toSegsN_succ, if_neg hgt, List.getElem?_cons_succ, ih hd h1 h2,
      List.drop_drop, show 1024 + 1024 * k = 1024 * (k + 1) by ring]

theorem toSegsN_mem {k : Nat} : ∀ {m : Nat} {bs : List Nat},
    bs.length = 1024 * k + m → 1 ≤ m → m ≤ 1024 →
    ∀ sg ∈ toSegsN (k + 1) bs, sg.size = 1024 ∧ sg.data.length = 1024 := by
  induction k with
  | zero =>
    intro m bs h h1 h2 sg hsg
    have hle : bs.length ≤ 1024 := by omega
    rw [toSegsN_succ, if_pos hle] at hsg
    simp only [List.mem_singleton] at hsg
    subst hsg
    exact ⟨rfl, padSeg_data_length hle⟩
  | succ k ih =>
    intro m bs h h1 h2 sg hsg
    have hgt : ¬ bs.length ≤ 1024 := by omega
    have hd : (bs.drop 1024).length = 1024 * k + m := by simp; omega
    rw [toSegsN_succ, if_neg hgt] at hsg
    simp only [List.mem_cons] at hsg
    rcases hsg with rfl | hsg
    · refine ⟨rfl, padSeg_data_length ?_⟩
      simp
    · exact ih hd h1 h2 sg hsg

theorem toSegsN_take_init {k : Nat} : ∀ {m : Nat} {bs : List Nat},
    bs.length = 1024 * k + m → 1 ≤ m → m ≤ 1024 →
    (toSegsN (k + 1) bs).take k ++ [padSeg (bs.drop (1024 * k))]
      = toSegsN (k + 1) bs := by
  induction k with
  | zero =>
    intro m bs h h1 h2
    have hle : bs.length ≤ 1024 := by omega
    rw [toSegsN_succ, if_pos hle]
    simp
  | succ k ih =>
    intro m bs h h1 h2
    have hgt : ¬ bs.length ≤ 1024 := by omega
    have hd : (bs.drop 1024).length = 1024 * k + m := by simp; omega
    rw [toSegsN_succ, if_neg hgt, List.take_succ_cons, List.cons_append,
      show 1024 * (k + 1) = 1024 + 1024 * k by ring, ← List.drop_drop,
      ih hd h1 h2]

theorem padSeg_nil : padSeg [] = ⟨1024, List.replicate 1024 0⟩ := rfl

theorem toSegsN_set_last {k : Nat} : ∀ {m : Nat} {bs c : List Nat},
    bs.length = 1024 * k + m → 1 ≤ m → m + c.length ≤ 1024 →
    toSegsN (k + 1) (bs ++ c)
      = (toSegsN (k + 1) bs).set k (padSeg (bs.drop (1024 * k) ++ c)) := by
  induction k with
  | zero =>
    intro m bs c h h1 h2
    have hle : bs.length ≤ 1024 := by omega
    have hle2 : (bs ++ c).length ≤ 1024 := by simp; omega
    rw [toSegsN_succ 0 (bs ++ c), if_pos hle2, toSegsN_succ 0 bs, if_pos hle,
      List.set_cons_zero, List.drop_zero]
  | succ k ih =>
    intro m bs c h h1 h2
    have hgt : ¬ bs.length ≤ 1024 := by omega
    have hgt2 : ¬ (bs ++ c).length ≤ 1024 := by simp; omega
    have hbl : 1024 ≤ bs.length := by omega
    have hd : (bs.drop 1024).length = 1024 * k + m := by simp; omega
    have ih2 := ih hd h1 h2
    rw [List.drop_drop] at ih2
    rw [toSegsN_succ (k + 1) (bs ++ c), if_neg hgt2,
      List.take_append_of_le_length hbl, List.drop_append_of_le_length hbl,
      toSegsN_succ (k + 1) bs, if_neg hgt, List.set_cons_succ,
      show 1024 * (k + 1) = 1024 + 1024 * k by ring, ← ih2]

theorem toSegsN_append_new {k : Nat} : ∀ {bs c : List Nat},
    bs.length = 1024 * (k + 1) → 1 ≤ c.length → c.length ≤ 1024 →
    toSegsN (k + 2) (bs ++ c) = toSegsN (k + 1) bs ++ [padSeg c] := by
  induction k with
  | zero =>
    intro bs c h hc1 hc2
    have hgt2 : ¬ (bs ++ c).length ≤ 1024 := by simp; omega
    rw [toSegsN_succ 1 (bs ++ c), if_neg hgt2,
      List.take_left' (by omega), List.drop_left' (by omega),
      toSegsN_succ 0 c, if_pos hc2, toSegsN_succ 0 bs, if_pos (by omega)]
    rfl
  | succ k ih =>
    intro bs c h hc1 hc2
    have hgt : ¬ bs.length ≤ 1024 := by omega
    have hgt2 : ¬ (bs ++ c).length ≤ 1024 := by simp; omega
    have hbl : 1024 ≤ bs.length := by omega
    have hd : (bs.drop 1024).length = 1024 * (k + 1) := by simp; omega
    rw [toSegsN_succ (k + 2) (bs ++ c), if_neg hgt2,
      List.take_append_of_le_length hbl, List.drop_append_of_le_length hbl,
      ih hd hc1 hc2, toSegsN_succ (k + 1) bs, if_neg hgt]
    rfl

theorem readable_toSegsN {k : Nat} : ∀ {m : Nat} {bs : List Nat},
    bs.length = 1024 * k + m → 1 ≤ m → m ≤ 1024 →
    readableSegs (toSegsN (k + 1) bs) 0 = bs ++ List.replicate (1024 - m) 0 := by
  induction k with
  | zero =>
    intro m bs h h1 h2
    have hle : bs.length ≤ 1024 := by omega
    rw [toSegsN_succ 0 bs, if_pos hle]
    have hdl : (padSeg bs).data.length = 1024 := padSeg_data_length hle
    show (padSeg bs).data.take (padSeg bs).size ++ readableSegs [] 0
        = bs ++ List.replicate (1024 - m) 0
    rw [show (padSeg bs).size = 1024 from rfl, List.take_of_length_le (le_of_eq hdl)]
    show bs ++ List.replicate (1024 - bs.length) 0 ++ []
        = bs ++ List.replicate (1024 - m) 0
    rw [List.append_nil, show 1024 - bs.length = 1024 - m by omega]
  | succ k ih =>
    intro m bs h h1 h2
    have hgt : ¬ bs.length ≤ 1024 := by omega
    have hd : (bs.drop 1024).length = 1024 * k + m := by simp; omega
    rw [toSegsN_succ (k + 1) bs, if_neg hgt]
    have htl : (bs.take 1024).length = 1024 := by simp; omega
    have hdata : (padSeg (bs.take 1024)).data = bs.take 1024 := by
      rw [padSeg, htl]
      show bs.take 1024 ++ List.replicate (1024 - 1024) 0 = bs.take 1024
      rw [Nat.sub_self, List.replicate_zero, List.append_nil]
    show (padSeg (bs.take 1024)).data.take (padSeg (bs.take 1024)).size ++
        readableSegs (toSegsN (k + 1) (bs.drop 1024)) 0
        = bs ++ List.replicate (1024 - m) 0
    rw [show (padSeg (bs.take 1024)).size = 1024 from rfl, hdata,
      List.take_of_length_le (le_of_eq htl), ih hd h1 h2, ← List.append_assoc,
      List.take_append_drop]

theorem patch_padSeg {l c : List Nat} (_h : l.length + c.length ≤ 1024) :
    patchList (padSeg l).data l.length c = (padSeg (l ++ c)).data := by
  show (padSeg l).data.take l.length ++ c ++
      (padSeg l).data.drop (l.length + c.length) = (padSeg (l ++ c)).data
  rw [show (padSeg l).data = l ++ List.replicate (1024 - l.length) 0 from rfl,
    List.take_left, List.drop_append_eq_append_drop,
    List.drop_of_length_le (Nat.le_add_right l.length c.length),
    List.drop_replicate, List.nil_append,
    show (padSeg (l ++ c)).data
        = (l ++ c) ++ List.replicate (1024 - (l ++ c).length) 0 from rfl,
    List.append_assoc, List.length_append,
    show l.length + c.length - l.length = c.length by omega,
    show 1024 - l.length - c.length = 1024 - (l.length + c.length) by omega,
    List.append_assoc]

theorem set_append_last {α : Type} (l : List α) (a v : α) :
    (l ++ [a]).set l.length v = l ++ [v] := by
  induction l with
  | nil => rfl
  | cons x xs ih =>
    show x :: (xs ++ [a]).set xs.length v = x :: (xs ++ [v])
    rw [ih]

/-! ## `pre_write` / `post_write` on canonical states -/

theorem moveIn_set (cb : Confbuf) {i : Nat} {d : Seg} (off : Nat) (c : List Nat)
    (h : cb.segs[i]? = some d) :
    moveIn cb i off c
      = { cb with segs := cb.segs.set i ⟨d.size, patchList d.data off c⟩ } := by
  simp [moveIn, h]

theorem post_write_roll (cb : Confbuf) {i : Nat} {d : Seg} (size : Nat)
    (hw : cb.wIdx = some i) (hd : cb.segs[i]? = some d) (h : cb.next_w = d.size) :
    netmap_confbuf_post_write cb size =
      { cb with
        wIdx := if i + 1 < cb.segs.length then some (i + 1) else none,
        next_w := size } := by
  simp [netmap_confbuf_post_write, hw, hd, h]

theorem post_write_advance (cb : Confbuf) {i : Nat} {d : Seg} (size : Nat)
    (hw : cb.wIdx = some i) (hd : cb.segs[i]? = some d) (h : cb.next_w ≠ d.size) :
    netmap_confbuf_post_write cb size = { cb with next_w := cb.next_w + size } := by
  simp [netmap_confbuf_post_write, hw, hd, h]

theorem toSegsN_ne_nil {k m : Nat} {bs : List Nat} (h : bs.length = 1024 * k + m)
    (h1 : 1 ≤ m) (h2 : m ≤ 1024) : toSegsN (k + 1) bs ≠ [] := by
  intro he
  have := toSegsN_length h h1 h2
  rw [he] at this
  simp at this

/-- `pre_write` on the full canonical state (4 chunks, 4096 committed
bytes) fails, whatever the request. -/
theorem pre_write_ws_full {bs : List Nat} {cb : Confbuf} (hws : WS bs cb)
    (h4 : bs.length = 4096) (req : Nat) :
    netmap_confbuf_pre_write cb req true = none := by
  rcases hws with ⟨hbs, rfl⟩ | ⟨k, m, hlen, h1, h2, rfl⟩
  · subst hbs; simp at h4
  · have hk : k = 3 := by omega
    have hm : m = 1024 := by omega
    subst hk; subst hm
    have hget := toSegsN_getLast (k := 3) hlen h1 h2
    simp [netmap_confbuf_pre_write, hget, NM_CBDATAMAX,
      show (padSeg (bs.drop (1024 * 3))).size = 1024 from rfl]

theorem pre_write_step_empty (req : Nat) (hreq : 1 ≤ req) :
    ∃ g, netmap_confbuf_pre_write emptyConfbuf req true
        = some (⟨[⟨1024, List.replicate 1024 0⟩], 0, some 0, 0, 1⟩, 0, 0, g) ∧
      1 ≤ g ∧ g ≤ req ∧ g ≤ 1024 ∧
      ∀ c : List Nat, c.length = g →
        netmap_confbuf_post_write
            (moveIn ⟨[⟨1024, List.replicate 1024 0⟩], 0, some 0, 0, 1⟩ 0 0 c) g
          = ⟨[padSeg c], 0, some 0, g, 1⟩ := by
  refine ⟨if req < 1024 then req else 1024, ?_, ?_, ?_, ?_, ?_⟩
  · simp [-List.reduceReplicate, netmap_confbuf_pre_write, emptyConfbuf,
      NM_CBDATAMAX, NM_CBDATASIZ]
  · split <;> omega
  · split <;> omega
  · split <;> omega
  · intro c hc
    have hpatch : patchList (List.replicate 1024 0) 0 c
        = c ++ List.replicate (1024 - c.length) 0 := by
      simp [-List.reduceReplicate, patchList, List.drop_replicate]
    have hpad : (⟨1024, patchList (List.replicate 1024 0) 0 c⟩ : Seg) = padSeg c := by
      rw [hpatch]; rfl
    have hmove : moveIn ⟨[⟨1024, List.replicate 1024 0⟩], 0, some 0, 0, 1⟩ 0 0 c
        = ⟨[padSeg c], 0, some 0, 0, 1⟩ := by
      rw [moveIn_set ⟨[⟨1024, List.replicate 1024 0⟩], 0, some 0, 0, 1⟩
        (i := 0) (d := ⟨1024, List.replicate 1024 0⟩) 0 c rfl]
      simp only [List.set_cons_zero]
      rw [hpad]
    rw [hmove, post_write_advance ⟨[padSeg c], 0, some 0, 0, 1⟩
      (i := 0) (d := padSeg c) (if req < 1024 then req else 1024) rfl rfl
      (by simp [padSeg])]
    simp

theorem pre_write_step_mid {k m : Nat} {bs : List Nat} (req : Nat)
    (hlen : bs.length = 1024 * k + m) (h1 : 1 ≤ m) (hm : m < 1024) (hreq : 1 ≤ req) :
    ∃ g, netmap_confbuf_pre_write ⟨toSegsN (k + 1) bs, 0, some k, m, k + 1⟩ req true
        = some (⟨toSegsN (k + 1) bs, 0, some k, m, k + 1⟩, k, m, g) ∧
      1 ≤ g ∧ g ≤ req ∧ m + g ≤ 1024 ∧
      ∀ c : List Nat, c.length = g →
        netmap_confbuf_post_write
            (moveIn ⟨toSegsN (k + 1) bs, 0, some k, m, k + 1⟩ k m c) c.length
          = ⟨toSegsN (k + 1) (bs ++ c), 0, some k, m + c.length, k + 1⟩ := by
  have h2 : m ≤ 1024 := le_of_lt hm
  have hget := toSegsN_getLast hlen h1 h2
  have hL : (bs.drop (1024 * k)).length = m := by
    rw [List.length_drop, hlen]; omega
  have hsize : (padSeg (bs.drop (1024 * k))).size = 1024 := rfl
  refine ⟨if req < 1024 - m then req else 1024 - m, ?_, ?_, ?_, ?_, ?_⟩
  · simp only [netmap_confbuf_pre_write, hget, hsize]
    rw [if_pos ⟨by omega, Or.inr trivial⟩]
    rfl
  · split <;> omega
  · split <;> omega
  · split <;> omega
  · intro c hc
    have hcle : m + c.length ≤ 1024 := by split at hc <;> omega
    have hc1 : 1 ≤ c.length := by split at hc <;> omega
    have hpatch : patchList (padSeg (bs.drop (1024 * k))).data m c
        = (padSeg (bs.drop (1024 * k) ++ c)).data := by
      rw [show m = (bs.drop (1024 * k)).length from hL.symm]
      exact patch_padSeg (by rw [hL]; omega)
    have hsegs : (toSegsN (k + 1) bs).set k
        ⟨(padSeg (bs.drop (1024 * k))).size,
          patchList (padSeg (bs.drop (1024 * k))).data m c⟩
        = toSegsN (k + 1) (bs ++ c) := by
      rw [hpatch, hsize,
        show (⟨1024, (padSeg (bs.drop (1024 * k) ++ c)).data⟩ : Seg)
          = padSeg (bs.drop (1024 * k) ++ c) from rfl,
        ← toSegsN_set_last hlen h1 hcle]
    rw [moveIn_set ⟨toSegsN (k + 1) bs, 0, some k, m, k + 1⟩
      (i := k) (d := padSeg (bs.drop (1024 * k))) m c hget]
    dsimp only
    rw [hsegs]
    have hlen2 : (bs ++ c).length = 1024 * k + (m + c.length) := by
      rw [List.length_append, hlen]; omega
    have hget2 := toSegsN_getLast hlen2 (show 1 ≤ m + c.length by omega) hcle
    have hne : m ≠ (padSeg ((bs ++ c).drop (1024 * k))).size := by
      rw [show (padSeg ((bs ++ c).drop (1024 * k))).size = 1024 from rfl]
      omega
    rw [post_write_advance ⟨toSegsN (k + 1) (bs ++ c), 0, some k, m, k + 1⟩
      (i := k) (d := padSeg ((bs ++ c).drop (1024 * k))) c.length rfl hget2 hne]

theorem pre_write_step_alloc {k : Nat} {bs : List Nat} (req : Nat)
    (hlen : bs.length = 1024 * (k + 1)) (hk : k + 1 ≤ 3) (hreq : 1 ≤ req) :
    ∃ g, netmap_confbuf_pre_write ⟨toSegsN (k + 1) bs, 0, some k, 1024, k + 1⟩ req true
        = some (⟨toSegsN (k + 1) bs ++ [⟨1024, List.replicate 1024 0⟩], 0,
            some k, 1024, k + 2⟩, k + 1, 0, g) ∧
      1 ≤ g ∧ g ≤ req ∧ g ≤ 1024 ∧
      ∀ c : List Nat, c.length = g →
        netmap_confbuf_post_write
            (moveIn ⟨toSegsN (k + 1) bs ++ [⟨1024, List.replicate 1024 0⟩], 0,
              some k, 1024, k + 2⟩ (k + 1) 0 c) c.length
          = ⟨toSegsN (k + 2) (bs ++ c), 0, some (k + 1), c.length, k + 2⟩ := by
  have hlen' : bs.length = 1024 * k + 1024 := by omega
  have h1 : (1:Nat) ≤ 1024 := by norm_num
  have hget := toSegsN_getLast hlen' h1 le_rfl
  have hsize : (padSeg (bs.drop (1024 * k))).size = 1024 := rfl
  have htake := toSegsN_take_init hlen' h1 le_rfl
  have hne := toSegsN_ne_nil hlen' h1 le_rfl
  have hlength := toSegsN_length hlen' h1 le_rfl
  have hie : (toSegsN (k + 1) bs).isEmpty = false := by
    cases hseg : toSegsN (k + 1) bs with
    | nil => exact absurd hseg hne
    | cons a l => rfl
  refine ⟨if req < 1024 then req else 1024, ?_, ?_, ?_, ?_, ?_⟩
  · simp only [netmap_confbuf_pre_write, hget, hsize, NM_CBDATAMAX, NM_CBDATASIZ]
    rw [if_neg (by simp), if_neg (by omega : ¬ 4 ≤ k + 1),
      if_neg (by simp : ¬ (1024 < req ∧ true = false)), hie]
    simp only [Bool.false_eq_true, if_false]
    rw [show (⟨(1024:Nat), (padSeg (bs.drop (1024 * k))).data⟩ : Seg)
        = padSeg (bs.drop (1024 * k)) from rfl, htake]
  · split <;> omega
  · split <;> omega
  · split <;> omega
  · intro c hc
    have hcle : c.length ≤ 1024 := by split at hc <;> omega
    have hc1 : 1 ≤ c.length := by split at hc <;> omega
    have hget3 : (toSegsN (k + 1) bs ++ [⟨1024, List.replicate 1024 0⟩])[k + 1]?
        = some ⟨1024, List.replicate 1024 0⟩ := by
      have h := List.getElem?_concat_length (toSegsN (k + 1) bs)
        (⟨1024, List.replicate 1024 0⟩ : Seg)
      rwa [hlength] at h
    have hpatch : patchList (List.replicate 1024 0) 0 c
        = c ++ List.replicate (1024 - c.length) 0 := by
      simp [-List.reduceReplicate, patchList, List.drop_replicate]
    have hsegs2 : (toSegsN (k + 1) bs
          ++ [(⟨1024, List.replicate 1024 0⟩ : Seg)]).set (k + 1)
        (⟨1024, patchList (List.replicate 1024 0) 0 c⟩ : Seg)
        = toSegsN (k + 1) bs ++ [padSeg c] := by
      have hs := set_append_last (toSegsN (k + 1) bs)
        (⟨1024, List.replicate 1024 0⟩ : Seg)
        (⟨1024, patchList (List.replicate 1024 0) 0 c⟩ : Seg)
      rw [hlength] at hs
      rw [hs, hpatch, show (⟨1024, c ++ List.replicate (1024 - c.length) 0⟩ : Seg)
          = padSeg c from rfl]

    have hmv : moveIn ⟨toSegsN (k + 1) bs ++ [⟨1024, List.replicate 1024 0⟩], 0,
        some k, 1024, k + 2⟩ (k + 1) 0 c
        = ⟨toSegsN (k + 1) bs ++ [padSeg c], 0, some k, 1024, k + 2⟩ := by
      rw [moveIn_set _ (i := k + 1) (d := ⟨1024, List.replicate 1024 0⟩) 0 c hget3]
      dsimp only
      rw [hsegs2]
    rw [hmv]
    have hgetA : (toSegsN (k + 1) bs ++ [padSeg c])[k]?
        = some (padSeg (bs.drop (1024 * k))) := by
      rw [List.getElem?_append_left (by rw [hlength]; omega)]
      exact hget
    rw [post_write_roll ⟨toSegsN (k + 1) bs ++ [padSeg c], 0, some k, 1024, k + 2⟩
      (i := k) (d := padSeg (bs.drop (1024 * k))) c.length rfl hgetA rfl]
    have hlen3 : (toSegsN (k + 1) bs ++ [padSeg c]).length = k + 2 := by
      rw [List.length_append, hlength]
      rfl
    rw [hlen3, if_pos (by omega : k + 1 < k + 2), toSegsN_append_new hlen hc1 hcle]

/-- One successful `pre_write`/`uiomove`/`post_write` round of the write
loop, on any canonical state with room left: the grant is at least one byte,
at most the request, never overflows the total capacity, and committing the
moved bytes yields the canonical state extended by them.  The intermediate
state after `pre_write` alone satisfies `WSP`. -/
theorem pre_write_ws_step {bs : List Nat} {cb : Confbuf} (req : Nat) (hws : WS bs cb)
    (hlt : bs.length < 4096) (hreq : 1 ≤ req) :
    ∃ cb1 i b g, netmap_confbuf_pre_write cb req true = some (cb1, i, b, g) ∧
      1 ≤ g ∧ g ≤ req ∧ bs.length + g ≤ 4096 ∧ WSP bs cb1 ∧
      ∀ c : List Nat, c.length = g →
        WS (bs ++ c) (netmap_confbuf_post_write (moveIn cb1 i b c) g) := by
  rcases hws with ⟨hbs, hcb⟩ | ⟨k, m, hlen, h1, h2, hcb⟩
  · subst hbs; subst hcb
    obtain ⟨g, hpw, hg1, hgr, hg1024, hpost⟩ := pre_write_step_empty req hreq
    refine ⟨_, 0, 0, g, hpw, hg1, hgr, by simp; omega, Or.inr (Or.inl ⟨rfl, rfl⟩),
      ?_⟩
    intro c hc
    rw [hpost c hc]
    refine Or.inr ⟨0, g, by simpa using hc, hg1, hg1024, ?_⟩
    rw [List.nil_append, toSegsN_succ 0 c, if_pos (by omega)]
  · by_cases hm : m < 1024
    · subst hcb
      obtain ⟨g, hpw, hg1, hgr, hgm, hpost⟩ := pre_write_step_mid req hlen h1 hm hreq
      have hk3 : k ≤ 3 := by omega
      refine ⟨_, k, m, g, hpw, hg1, hgr, by omega,
        Or.inl (Or.inr ⟨k, m, hlen, h1, h2, rfl⟩), ?_⟩
      intro c hc
      have := hpost c hc
      rw [hc] at this
      rw [this]
      refine Or.inr ⟨k, m + g, ?_, by omega, by omega, rfl⟩
      rw [List.length_append, hlen]; omega
    · have hm1024 : m = 1024 := by omega
      subst hm1024; subst hcb
      have hlen2 : bs.length = 1024 * (k + 1) := by omega
      have hk3 : k + 1 ≤ 3 := by omega
      obtain ⟨g, hpw, hg1, hgr, hg1024, hpost⟩ := pre_write_step_alloc req hlen2 hk3 hreq
      refine ⟨_, k + 1, 0, g, hpw, hg1, hgr, by omega,
        Or.inr (Or.inr ⟨k, hlen2, hk3, rfl⟩), ?_⟩
      intro c hc
      have := hpost c hc
      rw [hc] at this
      rw [this]
      refine Or.inr ⟨k + 1, g, ?_, hg1, hg1024, rfl⟩
      rw [List.length_append]; omega

/-- The write loop with an always-succeeding transport, from a canonical
state: if the bytes fit in the remaining capacity the loop consumes them
all and succeeds; otherwise it consumes exactly up to the capacity and
fails with `ENOMEM`, leaving the rest of the transfer unconsumed. -/
theorem writeLoop_ws : ∀ (fuel : Nat) (bytes bs : List Nat) (cb : Confbuf) (j : Nat),
    WS bs cb → bytes.length ≤ fuel → bs.length ≤ 4096 →
    (bs.length + bytes.length ≤ 4096 →
      ∃ cb2, writeLoopF fuel (fun _ => true) j cb bytes = (none, cb2, []) ∧
        WS (bs ++ bytes) cb2) ∧
    (4096 < bs.length + bytes.length →
      ∃ cb2, writeLoopF fuel (fun _ => true) j cb bytes
          = (some Err.enomem, cb2, bytes.drop (4096 - bs.length)) ∧
        WS (bs ++ bytes.take (4096 - bs.length)) cb2) := by
  intro fuel
  induction fuel with
  | zero =>
    intro bytes bs cb j hws hf h4
    have hnil : bytes = [] := List.eq_nil_of_length_eq_zero (by omega)
    subst hnil
    constructor
    · intro _
      exact ⟨cb, by simp [writeLoopF], by simpa using hws⟩
    · intro hgt
      simp only [List.length_nil, Nat.add_zero] at hgt
      omega
  | succ fuel ih =>
    intro bytes bs cb j hws hf h4
    rcases hbe : bytes with _ | ⟨x, xs⟩
    · constructor
      · intro _
        exact ⟨cb, by simp [writeLoopF], by simpa using hws⟩
      · intro hgt
        simp only [List.length_nil, Nat.add_zero] at hgt
        omega
    · rw [← hbe]
      have hbne : bytes ≠ [] := by rw [hbe]; simp
      have hbpos : 1 ≤ bytes.length := by
        rw [hbe]; simp
      by_cases hfull : bs.length = 4096
      · have hpw := pre_write_ws_full hws hfull bytes.length
        have hloop : writeLoopF (fuel + 1) (fun _ => true) j cb bytes
            = (some Err.enomem, cb, bytes) := by
          rw [writeLoopF, if_neg hbne, hpw]
        constructor
        · intro hle; omega
        · intro _
          refine ⟨cb, ?_, ?_⟩
          · rw [hloop, hfull, Nat.sub_self, List.drop_zero]
          · rw [hfull, Nat.sub_self, List.take_zero, List.append_nil]
            exact hws
      · have hlt : bs.length < 4096 := by omega
        obtain ⟨cb1, i, b, g, hpw, hg1, hgr, hcap, _, hpost⟩ :=
          pre_write_ws_step bytes.length hws hlt hbpos
        have htl : (bytes.take g).length = g := by
          rw [List.length_take]; omega
        have hws2 := hpost (bytes.take g) htl
        have hloop : writeLoopF (fuel + 1) (fun _ => true) j cb bytes
            = writeLoopF fuel (fun _ => true) (j + 1)
                (netmap_confbuf_post_write (moveIn cb1 i b (bytes.take g)) g)
                (bytes.drop g) := by
          rw [writeLoopF, if_neg hbne, hpw]
          simp only [if_true]
        have hdl : (bytes.drop g).length ≤ fuel := by
          rw [List.length_drop]; omega
        have hlen2 : (bs ++ bytes.take g).length = bs.length + g := by
          rw [List.length_append, htl]
        have hih := ih (bytes.drop g) (bs ++ bytes.take g) _ (j + 1) hws2 hdl
          (by rw [hlen2]; omega)
        constructor
        · intro hle
          obtain ⟨cb2, hrun, hend⟩ := hih.1 (by
            rw [hlen2, List.length_drop]; omega)
          refine ⟨cb2, ?_, ?_⟩
          · rw [hloop, hrun]
          · rw [List.append_assoc, List.take_append_drop] at hend
            exact hend
        · intro hgt
          obtain ⟨cb2, hrun, hend⟩ := hih.2 (by
            rw [hlen2, List.length_drop]; omega)
          refine ⟨cb2, ?_, ?_⟩
          · have hdd : g + (4096 - (bs ++ List.take g bytes).length)
                = 4096 - bs.length := by
              rw [hlen2]; omega
            rw [hloop, hrun, List.drop_drop, hdd]
          · rw [hlen2, show 4096 - (bs.length + g) = 4096 - bs.length - g by omega]
              at hend
            rw [List.append_assoc] at hend
            have hsplit : ∀ D : Nat, 4096 - bs.length = g + D →
                bytes.take (4096 - bs.length)
                  = bytes.take g ++ (bytes.drop g).take D := by
              intro D hD
              rw [hD, List.take_add]
            rw [hsplit (4096 - bs.length - g) (by omega)]
            exact hend

/-- If the write loop aborts with a transfer fault, the bytes moved so far
(and only they) are committed: the final state is the canonical state
extended by some consumed prefix `p` — possibly with one freshly linked
empty chunk (`WSP`) — and the failed move's bytes are all still in the
unconsumed remainder. -/
theorem writeLoop_ws_abort : ∀ (fuel : Nat) (bytes bs : List Nat) (cb : Confbuf)
    (j : Nat) (sched : Nat → Bool),
    WS bs cb → bs.length ≤ 4096 →
    ∀ cbe rest, writeLoopF fuel sched j cb bytes = (some Err.efault, cbe, rest) →
    ∃ p, bytes = p ++ rest ∧ rest ≠ [] ∧ bs.length + p.length ≤ 4096 ∧
      WSP (bs ++ p) cbe := by
  intro fuel
  induction fuel with
  | zero =>
    intro bytes bs cb j sched hws h4 cbe rest hrun
    by_cases hb : bytes = []
    · rw [writeLoopF, if_pos hb] at hrun
      simp at hrun
    · rw [writeLoopF, if_neg hb] at hrun
      simp at hrun
  | succ fuel ih =>
    intro bytes bs cb j sched hws h4 cbe rest hrun
    by_cases hb : bytes = []
    · rw [writeLoopF, if_pos hb] at hrun
      simp at hrun
    · have hbpos : 1 ≤ bytes.length := by
        cases bytes with
        | nil => exact absurd rfl hb
        | cons y ys => simp
      by_cases hfull : bs.length = 4096
      · have hpw := pre_write_ws_full hws hfull bytes.length
        rw [writeLoopF, if_neg hb, hpw] at hrun
        simp at hrun
      · have hlt : bs.length < 4096 := by omega
        obtain ⟨cb1, i, b, g, hpw, hg1, hgr, hcap, hwsp, hpost⟩ :=
          pre_write_ws_step bytes.length hws hlt hbpos
        rw [writeLoopF, if_neg hb, hpw] at hrun
        dsimp only at hrun
        by_cases hs : sched j = true
        · rw [if_pos hs] at hrun
          have htl : (bytes.take g).length = g := by
            rw [List.length_take]; omega
          have hws2 := hpost (bytes.take g) htl
          have hlen2 : (bs ++ bytes.take g).length = bs.length + g := by
            rw [List.length_append, htl]
          obtain ⟨p, hp, hrne, hple, hwsp2⟩ := ih (bytes.drop g) (bs ++ bytes.take g)
            _ (j + 1) sched hws2 (by rw [hlen2]; omega) cbe rest hrun
          refine ⟨bytes.take g ++ p, ?_, hrne, ?_, ?_⟩
          · rw [List.append_assoc, ← hp, List.take_append_drop]
          · rw [List.length_append, htl]
            rw [hlen2] at hple
            omega
          · rw [← List.append_assoc]
            exact hwsp2
        · rw [if_neg hs] at hrun
          simp only [Prod.mk.injEq] at hrun
          obtain ⟨-, hcbe, hrest⟩ := hrun
          refine ⟨[], by rw [List.nil_append, hrest], ?_, by simp; omega, ?_⟩
          · rw [← hrest]; exact hb
          · rw [List.append_nil, ← hcbe]
            exact hwsp

theorem readableSegs_append (a b : List Seg) :
    readableSegs (a ++ b) 0 = readableSegs a 0 ++ readableSegs b 0 := by
  induction a with
  | nil => simp [readableSegs]
  | cons d rest ih =>
    show (d.data.take d.size).drop 0 ++ readableSegs (rest ++ b) 0
        = (d.data.take d.size).drop 0 ++ readableSegs rest 0 ++ readableSegs b 0
    rw [ih, List.append_assoc]

theorem WSP_next_r {bs : List Nat} {cb : Confbuf} (h : WSP bs cb) :
    cb.next_r = 0 := by
  rcases h with (⟨-, rfl⟩ | ⟨-, -, -, -, -, rfl⟩) | (⟨-, rfl⟩ | ⟨-, -, -, rfl⟩) <;> rfl

theorem WSP_n_data_segs {bs : List Nat} {cb : Confbuf} (h : WSP bs cb) :
    cb.n_data = cb.segs.length := by
  rcases h with (⟨-, rfl⟩ | ⟨k, m, hlen, h1, h2, rfl⟩) | (⟨-, rfl⟩ | ⟨k, hlen, -, rfl⟩)
  · rfl
  · exact (toSegsN_length hlen h1 h2).symm
  · rfl
  · show k + 2 = (toSegsN (k + 1) bs ++ [(⟨1024, List.replicate 1024 0⟩ : Seg)]).length
    rw [List.length_append,
      toSegsN_length (m := 1024) (by omega) (by norm_num) le_rfl]
    rfl

theorem WSP_readable_take {bs : List Nat} {cb : Confbuf} (h : WSP bs cb) :
    (readable cb).take bs.length = bs := by
  rcases h with (⟨rfl, rfl⟩ | ⟨k, m, hlen, h1, h2, rfl⟩) | (⟨rfl, rfl⟩ | ⟨k, hlen, -, rfl⟩)
  · rfl
  · show (readableSegs (toSegsN (k + 1) bs) 0).take bs.length = bs
    rw [readable_toSegsN hlen h1 h2, List.take_left]
  · rfl
  · show (readableSegs (toSegsN (k + 1) bs ++ [(⟨1024, List.replicate 1024 0⟩ : Seg)]) 0).take
        bs.length = bs
    rw [readableSegs_append, readable_toSegsN (m := 1024) (by omega) (by norm_num) le_rfl,
      Nat.sub_self, List.replicate_zero, List.append_nil, List.take_left]

/-! ## The read side

`SWF` is the well-formedness the read path relies on: every chunk's logical
size is positive and within its allocation, and the read offset is within
the head chunk.  All states produced by the write path satisfy it, and
`post_read` preserves it along served reads. -/

def SWF (cb : Confbuf) : Prop :=
  (∀ sg ∈ cb.segs, 0 < sg.size ∧ sg.size ≤ sg.data.length) ∧
  ∀ d ∈ cb.segs.take 1, cb.next_r ≤ d.size

theorem pre_read_none_of_readable_nil : ∀ (segs : List Seg) (n req idx : Nat),
    (∀ sg ∈ segs, 0 < sg.size ∧ sg.size ≤ sg.data.length) →
    readableSegs segs n = [] → pre_readAux segs n req idx = none := by
  intro segs
  induction segs with
  | nil => intro n req idx _ _; rfl
  | cons d rest ih =>
    intro n req idx hsz hnil
    rw [readableSegs, List.append_eq_nil] at hnil
    obtain ⟨h1, h2⟩ := hnil
    have hd := hsz d (by simp)
    have hlen : (d.data.take d.size).length = d.size := by
      rw [List.length_take]; omega
    have hge : d.size ≤ n := by
      have := congrArg List.length h1
      rw [List.length_drop, hlen] at this
      simp at this
      omega
    rw [pre_readAux, if_neg (by omega)]
    exact ih 0 req (idx + 1) (fun sg hsg => hsz sg (by simp [hsg])) h2

theorem post_read_keep (cb : Confbuf) {d : Seg} {rest : List Seg} (size : Nat)
    (hs : cb.segs = d :: rest) (hne : cb.next_r ≠ d.size) :
    netmap_confbuf_post_read cb size = { cb with next_r := cb.next_r + size } := by
  simp [netmap_confbuf_post_read, hs, hne]

theorem post_read_pop (cb : Confbuf) {d : Seg} {rest : List Seg} (size : Nat)
    (hs : cb.segs = d :: rest) (heq : cb.next_r = d.size) :
    netmap_confbuf_post_read cb size =
      { cb with
        segs := rest, next_r := size, n_data := cb.n_data - 1,
        wIdx :=
          match cb.wIdx with
          | some (i + 1) => some i
          | some 0 => none
          | none => none } := by
  simp [netmap_confbuf_post_read, hs, heq]

theorem sliceAt_head (cb : Confbuf) {d : Seg} {rest : List Seg} (off len : Nat)
    (hs : cb.segs = d :: rest) :
    sliceAt cb 0 off len = (d.data.drop off).take len := by
  simp [sliceAt, hs]

theorem sliceAt_second (cb : Confbuf) {d d2 : Seg} {rest : List Seg} (off len : Nat)
    (hs : cb.segs = d :: d2 :: rest) :
    sliceAt cb 1 off len = (d2.data.drop off).take len := by
  simp [sliceAt, hs]

/-- One round of the read loop on a well-formed state with something to
serve: `pre_read` grants at least one byte from the front of the readable
stream, the granted slice is exactly that prefix, and committing it drops
it from the stream, preserving well-formedness. -/
theorem pre_read_step {cb : Confbuf} {xs : List Nat} (r : Nat) (hswf : SWF cb)
    (hread : readable cb = xs) (hxs : xs ≠ []) (hr : 1 ≤ r) :
    ∃ i off g, netmap_confbuf_pre_read cb r = some (i, off, g) ∧ 1 ≤ g ∧ g ≤ r ∧
      sliceAt cb i off g = xs.take g ∧
      SWF (netmap_confbuf_post_read cb g) ∧
      readable (netmap_confbuf_post_read cb g) = xs.drop g := by
  obtain ⟨hsz, hhead⟩ := hswf
  rcases hsegs : cb.segs with _ | ⟨d, rest⟩
  · rw [readable, hsegs] at hread
    exact absurd hread.symm (by simpa using hxs)
  · have hd := hsz d (by rw [hsegs]; simp)
    have hn : cb.next_r ≤ d.size := hhead d (by rw [hsegs]; simp)
    have hlen1 : (d.data.take d.size).length = d.size := by
      rw [List.length_take]; omega
    have hxsform : xs = (d.data.take d.size).drop cb.next_r ++ readableSegs rest 0 := by
      rw [← hread, readable, hsegs, readableSegs]
    by_cases hlt : cb.next_r < d.size
    · refine ⟨0, cb.next_r,
        if r < d.size - cb.next_r then r else d.size - cb.next_r,
        ?_, by split <;> omega, by split <;> omega, ?_, ?_, ?_⟩
      · rw [netmap_confbuf_pre_read, hsegs, pre_readAux, if_pos hlt]
      · rw [sliceAt_head cb cb.next_r _ hsegs, hxsform,
          List.take_append_of_le_length
            (by rw [List.length_drop, hlen1]; split <;> omega),
          List.drop_take, List.take_take,
          Nat.min_eq_left (by split <;> omega)]
      · rw [post_read_keep cb _ hsegs (by omega)]
        refine ⟨fun sg hsg => hsz sg hsg, fun e he => ?_⟩
        show cb.next_r + _ ≤ e.size
        rw [hsegs] at he
        simp only [List.take_succ_cons, List.take_zero, List.mem_singleton] at he
        subst he
        split <;> omega
      · rw [post_read_keep cb _ hsegs (by omega)]
        show readableSegs cb.segs (cb.next_r + _) = _
        rw [hsegs, readableSegs, hxsform,
          List.drop_append_of_le_length
            (by rw [List.length_drop, hlen1]; split <;> omega),
          List.drop_drop]
    · have heq : cb.next_r = d.size := by omega
      have hfirstnil : (d.data.take d.size).drop cb.next_r = [] :=
        List.drop_of_length_le (by rw [hlen1]; omega)
      have hxs2 : xs = readableSegs rest 0 := by
        rw [hxsform, hfirstnil, List.nil_append]
      rcases hrest : rest with _ | ⟨d2, rest2⟩
      · rw [hrest] at hxs2
        exact absurd (by rw [hxs2]; rfl) hxs
      · have hd2 := hsz d2 (by rw [hsegs, hrest]; simp)
        have hlen2 : (d2.data.take d2.size).length = d2.size := by
          rw [List.length_take]; omega
        have hxs3 : xs = d2.data.take d2.size ++ readableSegs rest2 0 := by
          rw [hxs2, hrest, readableSegs, List.drop_zero]
        refine ⟨1, 0, if r < d2.size - 0 then r else d2.size - 0,
          ?_, by split <;> omega, by split <;> omega, ?_, ?_, ?_⟩
        · rw [netmap_confbuf_pre_read, hsegs, hrest, pre_readAux, if_neg (by omega),
            pre_readAux, if_pos (by omega : 0 < d2.size)]
        · rw [sliceAt_second cb 0 _ (by rw [hsegs, hrest]), List.drop_zero, hxs3,
            List.take_append_of_le_length (by rw [hlen2]; split <;> omega),
          List.take_take, Nat.min_eq_left (by split <;> omega)]
        · rw [hrest] at hsegs
          rw [post_read_pop cb _ hsegs heq]
          refine ⟨fun sg hsg => hsz sg ?_, fun e he => ?_⟩
          · show sg ∈ cb.segs
            rw [hsegs]
            right
            exact hsg
          · show (if r < d2.size - 0 then r else d2.size - 0) ≤ e.size
            simp only [List.take_succ_cons, List.take_zero, List.mem_singleton] at he
            subst he
            split <;> omega
        · rw [hrest] at hsegs
          rw [post_read_pop cb _ hsegs heq]
          show readableSegs (d2 :: rest2) _ = _
          rw [readableSegs, hxs3,
            List.drop_append_of_le_length (by rw [hlen2]; split <;> omega)]

/-- The read loop with an always-succeeding transport on a well-formed
state delivers exactly the first `resid` bytes of the readable stream
(all of it, if less is available), succeeds, and leaves the rest. -/
theorem readLoop_swf : ∀ (fuel r : Nat) (cb : Confbuf) (xs : List Nat) (j : Nat),
    SWF cb → readable cb = xs → r ≤ fuel →
    ∃ cb2, readLoopF fuel (fun _ => true) j cb r = (none, xs.take r, cb2) ∧
      SWF cb2 ∧ readable cb2 = xs.drop r := by
  intro fuel
  induction fuel with
  | zero =>
    intro r cb xs j hswf hread hf
    have hr0 : r = 0 := by omega
    subst hr0
    exact ⟨cb, by simp [readLoopF], hswf, by simpa using hread⟩
  | succ fuel ih =>
    intro r cb xs j hswf hread hf
    by_cases hr0 : r = 0
    · subst hr0
      exact ⟨cb, by simp [readLoopF], hswf, by simpa using hread⟩
    · by_cases hxs : xs = []
      · subst hxs
        have hpr : netmap_confbuf_pre_read cb r = none :=
          pre_read_none_of_readable_nil cb.segs cb.next_r r 0 hswf.1 hread
        refine ⟨cb, ?_, hswf, by simpa using hread⟩
        rw [readLoopF, if_neg hr0, hpr]
        simp
      · obtain ⟨i, off, g, hpr, hg1, hgr, hslice, hswf2, hread2⟩ :=
          pre_read_step r hswf hread hxs (by omega)
        obtain ⟨cb2, hrun, hswf3, hread3⟩ := ih (r - g) (netmap_confbuf_post_read cb g)
          (xs.drop g) (j + 1) hswf2 hread2 (by omega)
        refine ⟨cb2, ?_, hswf3, ?_⟩
        · rw [readLoopF, if_neg hr0, hpr]
          simp only [if_true]
          rw [hslice, hrun]
          have : xs.take g ++ (xs.drop g).take (r - g) = xs.take r := by
            rw [← List.take_add]
            congr 1
            omega
          rw [this]
        · rw [hread3, List.drop_drop]
          congr 1
          omega

theorem WS_SWF {bs : List Nat} {cb : Confbuf} (h : WS bs cb) : SWF cb := by
  rcases h with ⟨-, rfl⟩ | ⟨k, m, hlen, h1, h2, rfl⟩
  · exact ⟨by simp [emptyConfbuf], by simp [emptyConfbuf]⟩
  · constructor
    · intro sg hsg
      have := toSegsN_mem hlen h1 h2 sg hsg
      omega
    · intro e _
      exact Nat.zero_le _

theorem WS_readable {bs : List Nat} {cb : Confbuf} (h : WS bs cb) :
    ∃ pad, readable cb = bs ++ List.replicate pad 0 := by
  rcases h with ⟨rfl, rfl⟩ | ⟨k, m, hlen, h1, h2, rfl⟩
  · exact ⟨0, rfl⟩
  · exact ⟨1024 - m, readable_toSegsN hlen h1 h2⟩

theorem runWrites_ws : ∀ (ws : List (List Nat)) (bs : List Nat) (cb : Confbuf),
    WS bs cb → bs.length + ws.flatten.length ≤ 4096 →
    ∃ cb2, runWrites ws cb = some cb2 ∧ WS (bs ++ ws.flatten) cb2 := by
  intro ws
  induction ws with
  | nil =>
    intro bs cb hws _
    exact ⟨cb, rfl, by simpa using hws⟩
  | cons w ws ih =>
    intro bs cb hws hle
    rw [List.flatten_cons, List.length_append] at hle
    have hb4 : bs.length ≤ 4096 := by omega
    obtain ⟨cb1, hrun, hws1⟩ := (writeLoop_ws w.length w bs cb 0 hws le_rfl hb4).1
      (by omega)
    obtain ⟨cb2, hrun2, hws2⟩ := ih (bs ++ w) cb1 hws1
      (by rw [List.length_append]; omega)
    refine ⟨cb2, ?_, by rwa [List.append_assoc, ← List.flatten_cons] at hws2⟩
    rw [runWrites, hrun]
    exact hrun2

/-- States reachable from the empty buffer through the exported buffer
operations (with any arguments whatsoever). -/
inductive Reachable : Confbuf → Prop where
  | empty : Reachable emptyConfbuf
  | preW {cb cb1 : Confbuf} {i b s req : Nat} {avl : Bool} : Reachable cb →
      netmap_confbuf_pre_write cb req avl = some (cb1, i, b, s) → Reachable cb1
  | postW {cb : Confbuf} (size : Nat) : Reachable cb →
      Reachable (netmap_confbuf_post_write cb size)
  | move {cb : Confbuf} (i off : Nat) (src : List Nat) : Reachable cb →
      Reachable (moveIn cb i off src)
  | postR {cb : Confbuf} (size : Nat) : Reachable cb →
      Reachable (netmap_confbuf_post_read cb size)
  | destroy {cb : Confbuf} : Reachable cb →
      Reachable (netmap_confbuf_destroy cb)

theorem pre_write_n_data {cb cb1 : Confbuf} {i b s req : Nat} {avl : Bool}
    (h : netmap_confbuf_pre_write cb req avl = some (cb1, i, b, s)) :
    cb1.n_data = cb.n_data ∨
      (cb.n_data < NM_CBDATAMAX ∧ cb1.n_data = cb.n_data + 1) := by
  unfold netmap_confbuf_pre_write at h
  set s0 := (match cb.wIdx with
    | some i =>
      match cb.segs[i]? with
      | some d => d.size - cb.next_w
      | none => 0
    | none => 0) with hs0
  by_cases hc : 0 < s0 ∧ (req ≤ s0 ∨ avl = true)
  · rw [if_pos hc] at h
    simp only [Option.some.injEq, Prod.mk.injEq] at h
    left
    rw [← h.1]
  · rw [if_neg hc] at h
    by_cases hguard : NM_CBDATAMAX ≤ cb.n_data
    · rw [if_pos hguard] at h
      exact absurd h (by simp)
    · rw [if_neg hguard] at h
      simp only [Option.some.injEq, Prod.mk.injEq] at h
      right
      refine ⟨Nat.lt_of_not_le hguard, ?_⟩
      rw [← h.1]
      split <;> rfl

theorem post_write_n_data (cb : Confbuf) (size : Nat) :
    (netmap_confbuf_post_write cb size).n_data = cb.n_data := by
  cases hw : cb.wIdx with
  | none => simp [netmap_confbuf_post_write, hw]
  | some i =>
    cases hd : cb.segs[i]? with
    | none => simp [netmap_confbuf_post_write, hw, hd]
    | some d =>
      by_cases hh : cb.next_w = d.size <;>
        simp [netmap_confbuf_post_write, hw, hd, hh]

theorem post_read_n_data (cb : Confbuf) (size : Nat) :
    (netmap_confbuf_post_read cb size).n_data = cb.n_data ∨
      (netmap_confbuf_post_read cb size).n_data = cb.n_data - 1 := by
  cases hs : cb.segs with
  | nil => left; simp [netmap_confbuf_post_read, hs]
  | cons d rest =>
    by_cases hh : cb.next_r = d.size
    · right; simp [netmap_confbuf_post_read, hs, hh]
    · left; simp [netmap_confbuf_post_read, hs, hh]

theorem moveIn_n_data (cb : Confbuf) (i off : Nat) (src : List Nat) :
    (moveIn cb i off src).n_data = cb.n_data := by
  cases hd : cb.segs[i]? with
  | none => simp [moveIn, hd]
  | some d => simp [moveIn, hd]

/-- The chunk count never exceeds `NM_CBDATAMAX` in any reachable state. -/
theorem reachable_n_data_le {cb : Confbuf} (h : Reachable cb) :
    cb.n_data ≤ NM_CBDATAMAX := by
  induction h with
  | empty => exact Nat.zero_le _
  | preW _ hpw ih =>
    rcases pre_write_n_data hpw with he | ⟨hlt, he⟩
    · rw [he]; exact ih
    · rw [he]; omega
  | postW size _ ih => rw [post_write_n_data]; exact ih
  | move i off src _ ih => rw [moveIn_n_data]; exact ih
  | postR size _ ih =>
    rcases post_read_n_data _ size with he | he
    · rw [he]; exact ih
    · rw [he]; omega
  | destroy _ _ => exact Nat.zero_le _

/-! ## FIFO round trip (claim C1) -/

/-- C1: for every sequence of `write()` calls with arbitrary byte counts
of at least 1 whose total is at most `NM_CBDATAMAX * NM_CBDATASIZ`, every
call succeeds, and reading that many bytes back through the read loop
yields exactly the bytes written, in write order. -/
theorem confbuf_fifo_roundtrip (writes : List (List Nat))
    (_hpos : ∀ w ∈ writes, 1 ≤ w.length)
    (hcap : writes.flatten.length ≤ NM_CBDATAMAX * NM_CBDATASIZ) :
    ∃ cb, runWrites writes emptyConfbuf = some cb ∧
      (readLoopF writes.flatten.length (fun _ => true) 0 cb
        writes.flatten.length).2.1 = writes.flatten := by
  have h4 : NM_CBDATAMAX * NM_CBDATASIZ = 4096 := rfl
  rw [h4] at hcap
  obtain ⟨cb, hrun, hws⟩ := runWrites_ws writes [] emptyConfbuf
    (Or.inl ⟨rfl, rfl⟩) (by simpa using hcap)
  rw [List.nil_append] at hws
  obtain ⟨pad, hread⟩ := WS_readable hws
  obtain ⟨cb2, hloop, -, -⟩ := readLoop_swf writes.flatten.length
    writes.flatten.length cb (writes.flatten ++ List.replicate pad 0) 0
    (WS_SWF hws) hread le_rfl
  refine ⟨cb, hrun, ?_⟩
  rw [hloop]
  show (writes.flatten ++ List.replicate pad 0).take writes.flatten.length
      = writes.flatten
  rw [List.take_left]

/-- Witness for `confbuf_fifo_roundtrip` on two concrete writes. -/
theorem confbuf_fifo_roundtrip_witness :
    ∃ cb, runWrites [[1, 2], [3, 4, 5]] emptyConfbuf = some cb ∧
      (readLoopF 5 (fun _ => true) 0 cb 5).2.1 = [1, 2, 3, 4, 5] := by
  have h := confbuf_fifo_roundtrip [[1, 2], [3, 4, 5]] (by decide) (by decide)
  simpa using h

/-! ## Segment cap (claim C4) -/

/-- C4: the live chunk count `n_data` never exceeds `NM_CBDATAMAX` in any
state reachable through the buffer operations; when `n_data` has reached
the cap, a successful `pre_write` hands out only existing tail space and
leaves the buffer untouched (it never allocates — the NULL return is the
only alternative); and a single `write()` call supplying more than
`NM_CBDATAMAX * NM_CBDATASIZ` bytes to a fresh buffer fails with
`ENOMEM`. -/
theorem confbuf_cap_invariant :
    (∀ cb : Confbuf, Reachable cb → cb.n_data ≤ NM_CBDATAMAX) ∧
    (∀ (cb : Confbuf) (req : Nat) (avl : Bool) (r : Confbuf × Nat × Nat × Nat),
      NM_CBDATAMAX ≤ cb.n_data →
      netmap_confbuf_pre_write cb req avl = some r → r.1 = cb) ∧
    (∀ bytes : List Nat, NM_CBDATAMAX * NM_CBDATASIZ < bytes.length →
      (writeLoopF bytes.length (fun _ => true) 0 emptyConfbuf bytes).1
        = some Err.enomem) := by
  refine ⟨fun cb h => reachable_n_data_le h, ?_, ?_⟩
  · intro cb req avl r hcap h
    unfold netmap_confbuf_pre_write at h
    by_cases hc : 0 < (match cb.wIdx with
        | some i =>
          match cb.segs[i]? with
          | some d => d.size - cb.next_w
          | none => 0
        | none => 0) ∧ (req ≤ (match cb.wIdx with
        | some i =>
          match cb.segs[i]? with
          | some d => d.size - cb.next_w
          | none => 0
        | none => 0) ∨ avl = true)
    · rw [if_pos hc] at h
      simp only [Option.some.injEq] at h
      rw [← h]
    · rw [if_neg hc, if_pos hcap] at h
      exact absurd h (by simp)
  · intro bytes hlen
    have h4 : NM_CBDATAMAX * NM_CBDATASIZ = 4096 := rfl
    rw [h4] at hlen
    obtain ⟨cb2, hrun, -⟩ := (writeLoop_ws bytes.length bytes [] emptyConfbuf 0
      (Or.inl ⟨rfl, rfl⟩) le_rfl (by simp)).2 (by simpa using hlen)
    rw [hrun]

/-- Witness for `confbuf_cap_invariant`: the fresh buffer is reachable and
within the cap; a capped buffer's successful `pre_write` changes nothing;
a 4097-byte write to a fresh buffer reports `ENOMEM`. -/
theorem confbuf_cap_invariant_witness :
    emptyConfbuf.n_data ≤ NM_CBDATAMAX ∧
    ((⟨[⟨4, [0, 0, 0, 0]⟩], 0, some 0, 0, 4⟩, 0, 0, 2) :
        Confbuf × Nat × Nat × Nat).1 = ⟨[⟨4, [0, 0, 0, 0]⟩], 0, some 0, 0, 4⟩ ∧
    (writeLoopF 4097 (fun _ => true) 0 emptyConfbuf (List.replicate 4097 7)).1
      = some Err.enomem := by
  refine ⟨confbuf_cap_invariant.1 emptyConfbuf Reachable.empty,
    confbuf_cap_invariant.2.1 ⟨[⟨4, [0, 0, 0, 0]⟩], 0, some 0, 0, 4⟩ 2 true
      (⟨[⟨4, [0, 0, 0, 0]⟩], 0, some 0, 0, 4⟩, 0, 0, 2) (by decide) (by decide), ?_⟩
  have h := confbuf_cap_invariant.2.2 (List.replicate 4097 7)
    (by rw [List.length_replicate]; norm_num [NM_CBDATAMAX, NM_CBDATASIZ])
  rwa [List.length_replicate] at h

/-! ## Aborted transfers leave the buffer consistent (claim C5) -/

/-- `post_read` keeps `n_data` equal to the chain length: popping the head
removes one chunk and decrements the counter together. -/
theorem post_read_chain (cb : Confbuf) (size : Nat)
    (h : cb.n_data = cb.segs.length) :
    (netmap_confbuf_post_read cb size).n_data
      = (netmap_confbuf_post_read cb size).segs.length := by
  cases hs : cb.segs with
  | nil =>
    simp only [netmap_confbuf_post_read, hs]
    rw [h, hs]
  | cons d rest =>
    by_cases hh : cb.next_r = d.size
    · simp only [netmap_confbuf_post_read, hs, if_pos hh]
      rw [h, hs]
      simp
    · simp only [netmap_confbuf_post_read, hs, if_neg hh]
      rw [h, hs]

/-- A `uiomove` fault inside the read loop aborts with the bytes delivered
so far being exactly a prefix of the readable stream; the state keeps the
rest of the stream (nothing of the failed move is consumed), stays
well-formed, and `n_data` still counts exactly the chain. -/
theorem readLoop_abort : ∀ (fuel : Nat) (sched : Nat → Bool) (r j : Nat)
    (cb cbe : Confbuf) (xs out : List Nat),
    SWF cb → readable cb = xs → cb.n_data = cb.segs.length →
    readLoopF fuel sched j cb r = (some Err.efault, out, cbe) →
    ∃ d, out = xs.take d ∧ readable cbe = xs.drop d ∧ SWF cbe ∧
      cbe.n_data = cbe.segs.length := by
  intro fuel
  induction fuel with
  | zero =>
    intro sched r j cb cbe xs out hswf hread hnd hrun
    rw [readLoopF] at hrun
    by_cases hr : r = 0
    · rw [if_pos hr] at hrun
      simp at hrun
    · rw [if_neg hr] at hrun
      simp at hrun
  | succ fuel ih =>
    intro sched r j cb cbe xs out hswf hread hnd hrun
    rw [readLoopF] at hrun
    by_cases hr0 : r = 0
    · rw [if_pos hr0] at hrun
      simp at hrun
    · rw [if_neg hr0] at hrun
      by_cases hxs : xs = []
      · subst hxs
        have hnone : netmap_confbuf_pre_read cb r = none := by
          rw [netmap_confbuf_pre_read]
          exact pre_read_none_of_readable_nil cb.segs cb.next_r r 0 hswf.1 hread
        rw [hnone] at hrun
        simp at hrun
      · obtain ⟨i, off, g, hpr, hg1, hg2, hslice, hswf2, hread2⟩ :=
          pre_read_step r hswf hread hxs (by omega)
        rw [hpr] at hrun
        dsimp only at hrun
        by_cases hsch : sched j = true
        · rw [if_pos hsch] at hrun
          simp only [Prod.mk.injEq] at hrun
          obtain ⟨h1, h2, h3⟩ := hrun
          have hnd1 : (netmap_confbuf_post_read cb g).n_data
              = (netmap_confbuf_post_read cb g).segs.length :=
            post_read_chain cb g hnd
          have hrun2 : readLoopF fuel sched (j + 1)
              (netmap_confbuf_post_read cb g) (r - g)
              = (some Err.efault,
                 (readLoopF fuel sched (j + 1)
                   (netmap_confbuf_post_read cb g) (r - g)).2.1, cbe) := by
            rw [← h1, ← h3]
          obtain ⟨d, hout, hreade, hswfe, hnde⟩ :=
            ih sched (r - g) (j + 1) (netmap_confbuf_post_read cb g) cbe
              (xs.drop g)
              ((readLoopF fuel sched (j + 1)
                (netmap_confbuf_post_read cb g) (r - g)).2.1)
              hswf2 hread2 hnd1 hrun2
          refine ⟨g + d, ?_, ?_, hswfe, hnde⟩
          · rw [← h2, hslice, hout, ← List.take_add]
          · rw [hreade, List.drop_drop, Nat.add_comm]
        · rw [if_neg hsch] at hrun
          simp only [Prod.mk.injEq] at hrun
          obtain ⟨-, h2, h3⟩ := hrun
          refine ⟨0, by rw [← h2]; simp, ?_, ?_, ?_⟩
          · rw [← h3, hread]
            simp
          · rw [← h3]
            exact hswf
          · rw [← h3]
            exact hnd

/-- C5: a `uiomove` fault aborts the current call at once and leaves the
buffer consistent for a subsequent attempt.  Write side: the `write()` loop
returns the error with some prefix `p` of the transfer consumed; no byte of
the failed move is committed (the committed stream is exactly the old
content followed by `p`, and the failed move's bytes are all inside the
unconsumed remainder); the read cursor is untouched; every allocated chunk
is reachable from the read pointer (`n_data` counts exactly the chain), and
the state is again a canonical (possibly pending-chunk) write state.  Read
side: the `read()` loop returns the error having delivered exactly some
prefix of the readable stream; nothing of the failed move is consumed (the
delivered bytes followed by what is still readable reconstruct the whole
stream), the read side stays well-formed, and every allocated chunk remains
reachable from the read pointer. -/
theorem write_abort_consistent :
    (∀ (bs bytes : List Nat) (cb cbe : Confbuf) (rest : List Nat)
      (sched : Nat → Bool), WS bs cb →
      bs.length ≤ NM_CBDATAMAX * NM_CBDATASIZ →
      writeLoopF bytes.length sched 0 cb bytes
        = (some Err.efault, cbe, rest) →
      ∃ p, bytes = p ++ rest ∧ rest ≠ [] ∧
        cbe.next_r = cb.next_r ∧
        cbe.n_data = cbe.segs.length ∧
        (readable cbe).take (bs.length + p.length) = bs ++ p ∧
        WSP (bs ++ p) cbe) ∧
    (∀ (fuel r : Nat) (sched : Nat → Bool) (cb cbe : Confbuf)
      (xs out : List Nat), SWF cb → readable cb = xs →
      cb.n_data = cb.segs.length →
      readLoopF fuel sched 0 cb r = (some Err.efault, out, cbe) →
      ∃ d, out = xs.take d ∧ readable cbe = xs.drop d ∧
        out ++ readable cbe = xs ∧ SWF cbe ∧
        cbe.n_data = cbe.segs.length) := by
  constructor
  · intro bs bytes cb cbe rest sched hws hle habort
    have h4 : NM_CBDATAMAX * NM_CBDATASIZ = 4096 := rfl
    rw [h4] at hle
    obtain ⟨p, hp, hrne, hple, hwsp⟩ := writeLoop_ws_abort bytes.length bytes bs cb 0
      sched hws hle cbe rest habort
    refine ⟨p, hp, hrne, ?_, WSP_n_data_segs hwsp, ?_, hwsp⟩
    · rw [WSP_next_r hwsp, WSP_next_r (Or.inl hws)]
    · have h := WSP_readable_take hwsp
      rwa [List.length_append] at h
  · intro fuel r sched cb cbe xs out hswf hread hnd habort
    obtain ⟨d, hout, hreade, hswfe, hnde⟩ :=
      readLoop_abort fuel sched r 0 cb cbe xs out hswf hread hnd habort
    exact ⟨d, hout, hreade,
      by rw [hout, hreade, List.take_append_drop], hswfe, hnde⟩

/-- Witness for `write_abort_consistent`: a one-byte write into a fresh
buffer whose only `uiomove` faults, and a two-byte read from a committed
buffer whose only `uiomove` faults. -/
theorem write_abort_consistent_witness :
    (∃ p, ([1] : List Nat) = p ++ [1] ∧ ([1] : List Nat) ≠ [] ∧
      (⟨[⟨1024, List.replicate 1024 0⟩], 0, some 0, 0, 1⟩ : Confbuf).next_r
        = emptyConfbuf.next_r ∧
      (⟨[⟨1024, List.replicate 1024 0⟩], 0, some 0, 0, 1⟩ : Confbuf).n_data
        = (⟨[⟨1024, List.replicate 1024 0⟩], 0, some 0, 0, 1⟩ : Confbuf).segs.length ∧
      (readable ⟨[⟨1024, List.replicate 1024 0⟩], 0, some 0, 0, 1⟩).take
          (List.length ([] : List Nat) + p.length) = [] ++ p ∧
      WSP ([] ++ p) ⟨[⟨1024, List.replicate 1024 0⟩], 0, some 0, 0, 1⟩) ∧
    (∃ d, ([] : List Nat) = [7, 8].take d ∧
      readable ⟨[(⟨2, [7, 8]⟩ : Seg)], 0, some 0, 2, 1⟩ = [7, 8].drop d ∧
      [] ++ readable ⟨[(⟨2, [7, 8]⟩ : Seg)], 0, some 0, 2, 1⟩ = [7, 8] ∧
      SWF (⟨[(⟨2, [7, 8]⟩ : Seg)], 0, some 0, 2, 1⟩ : Confbuf) ∧
      (⟨[(⟨2, [7, 8]⟩ : Seg)], 0, some 0, 2, 1⟩ : Confbuf).n_data
        = (⟨[(⟨2, [7, 8]⟩ : Seg)], 0, some 0, 2, 1⟩ : Confbuf).segs.length) :=
  ⟨write_abort_consistent.1 [] [1] emptyConfbuf
      ⟨[⟨1024, List.replicate 1024 0⟩], 0, some 0, 0, 1⟩ [1] (fun _ => false)
      (Or.inl ⟨rfl, rfl⟩) (by norm_num [NM_CBDATAMAX, NM_CBDATASIZ]) (by rfl),
    write_abort_consistent.2 1 2 (fun _ => false)
      ⟨[(⟨2, [7, 8]⟩ : Seg)], 0, some 0, 2, 1⟩
      ⟨[(⟨2, [7, 8]⟩ : Seg)], 0, some 0, 2, 1⟩ [7, 8] []
      ⟨by decide, by decide⟩ rfl rfl (by rfl)⟩

/-! ## Region sizes from `prepare_write` (claim C6) -/

/-- C6 counterexample: the total writable capacity handed out by
`prepare_write` across a buffer's lifetime exceeds `NM_CBDATAMAX` times the
per-chunk size.  Five full-capacity grant/commit/read cycles (each one a
`pre_write` granting 1024 bytes, a `post_write` committing them, and a
`pre_read`/`post_read` draining them — draining lets the next `pre_write`
allocate a fresh chunk) hand out 5120 bytes of writable capacity while
every chunk is exactly `NM_CBDATASIZ` bytes and the live-chunk count never
leaves the cap. -/
theorem pre_write_handout_exceeds_cap_cex :
    (let g1 := (netmap_confbuf_pre_write emptyConfbuf 1024 true).getD
        (emptyConfbuf, 0, 0, 0)
     let c1 := netmap_confbuf_post_write g1.1 g1.2.2.2
     let c1r := netmap_confbuf_post_read c1
        ((netmap_confbuf_pre_read c1 1024).getD (0, 0, 0)).2.2
     let g2 := (netmap_confbuf_pre_write c1r 1024 true).getD (emptyConfbuf, 0, 0, 0)
     let c2 := netmap_confbuf_post_write g2.1 g2.2.2.2
     let c2r := netmap_confbuf_post_read c2
        ((netmap_confbuf_pre_read c2 1024).getD (0, 0, 0)).2.2
     let g3 := (netmap_confbuf_pre_write c2r 1024 true).getD (emptyConfbuf, 0, 0, 0)
     let c3 := netmap_confbuf_post_write g3.1 g3.2.2.2
     let c3r := netmap_confbuf_post_read c3
        ((netmap_confbuf_pre_read c3 1024).getD (0, 0, 0)).2.2
     let g4 := (netmap_confbuf_pre_write c3r 1024 true).getD (emptyConfbuf, 0, 0, 0)
     let c4 := netmap_confbuf_post_write g4.1 g4.2.2.2
     let c4r := netmap_confbuf_post_read c4
        ((netmap_confbuf_pre_read c4 1024).getD (0, 0, 0)).2.2
     let g5 := (netmap_confbuf_pre_write c4r 1024 true).getD (emptyConfbuf, 0, 0, 0)
     (netmap_confbuf_pre_write emptyConfbuf 1024 true).isSome = true ∧
     (netmap_confbuf_pre_write c1r 1024 true).isSome = true ∧
     (netmap_confbuf_pre_write c2r 1024 true).isSome = true ∧
     (netmap_confbuf_pre_write c3r 1024 true).isSome = true ∧
     (netmap_confbuf_pre_write c4r 1024 true).isSome = true ∧
     g1.2.2.2 = 1024 ∧ g2.2.2.2 = 1024 ∧ g3.2.2.2 = 1024 ∧ g4.2.2.2 = 1024 ∧
     g5.2.2.2 = 1024 ∧
     ((netmap_confbuf_pre_read c1 1024).getD (0, 0, 0)).2.2 = 1024 ∧
     ((netmap_confbuf_pre_read c2 1024).getD (0, 0, 0)).2.2 = 1024 ∧
     ((netmap_confbuf_pre_read c3 1024).getD (0, 0, 0)).2.2 = 1024 ∧
     ((netmap_confbuf_pre_read c4 1024).getD (0, 0, 0)).2.2 = 1024 ∧
     g1.2.2.2 + g2.2.2.2 + g3.2.2.2 + g4.2.2.2 + g5.2.2.2 = 5120 ∧
     g1.1.n_data = 1 ∧ g2.1.n_data = 2 ∧ g3.1.n_data = 2 ∧ g4.1.n_data = 2 ∧
     g5.1.n_data = 2 ∧
     (∀ sg ∈ g5.1.segs, sg.size = NM_CBDATASIZ) ∧
     NM_CBDATAMAX * NM_CBDATASIZ < 5120) := by
  decide

/-- C6 (amended): a successful `prepare_write` returns a region whose
reported length never exceeds the requested size; but the cumulative
capacity handed out over a buffer's lifetime is not bounded by the cap —
only the number of simultaneously live chunks is (it never exceeds
`NM_CBDATAMAX` in any reachable state). -/
theorem pre_write_region_le_request :
    (∀ (cb cb1 : Confbuf) (req i b s : Nat) (avl : Bool),
      netmap_confbuf_pre_write cb req avl = some (cb1, i, b, s) → s ≤ req) ∧
    (∀ cb : Confbuf, Reachable cb → cb.n_data ≤ NM_CBDATAMAX) := by
  refine ⟨?_, fun cb h => reachable_n_data_le h⟩
  intro cb cb1 req i b s avl h
  unfold netmap_confbuf_pre_write at h
  set s0 := (match cb.wIdx with
    | some i =>
      match cb.segs[i]? with
      | some d => d.size - cb.next_w
      | none => 0
    | none => 0) with hs0
  by_cases hc : 0 < s0 ∧ (req ≤ s0 ∨ avl = true)
  · rw [if_pos hc] at h
    simp only [Option.some.injEq, Prod.mk.injEq] at h
    obtain ⟨-, -, -, hs⟩ := h
    rw [← hs]
    split <;> omega
  · rw [if_neg hc] at h
    by_cases hguard : NM_CBDATAMAX ≤ cb.n_data
    · rw [if_pos hguard] at h
      exact absurd h (by simp)
    · rw [if_neg hguard] at h
      simp only [Option.some.injEq, Prod.mk.injEq] at h
      obtain ⟨-, -, -, hs⟩ := h
      rw [← hs]
      split <;> (try split) <;> omega

theorem pre_write_region_le_request_witness :
    3 ≤ 3 ∧ emptyConfbuf.n_data ≤ NM_CBDATAMAX :=
  ⟨pre_write_region_le_request.1 emptyConfbuf
      ⟨[(⟨1024, List.replicate 1024 0⟩ : Seg)], 0, some 0, 0, 1⟩ 3 0 0 3 true (by rfl),
    pre_write_region_le_request.2 emptyConfbuf Reachable.empty⟩

/-! ## Peek and consume (claim C8) -/

/-- One peek/consume step on a well-formed read side: peek never mutates the
buffer; on an empty stream `pre_read` reports end-of-stream; on a non-empty
stream peek returns the first readable byte and `consume` drops exactly that
byte, preserving well-formedness. -/
theorem peek_step {cb : Confbuf} {xs : List Nat} (hswf : SWF cb)
    (hread : readable cb = xs) :
    (netmap_confbuf_peek cb).2 = cb ∧
    (xs = [] → netmap_confbuf_pre_read cb 1 = none) ∧
    (xs ≠ [] → (netmap_confbuf_peek cb).1 = xs.getD 0 0 ∧
      SWF (netmap_confbuf_consume cb) ∧
      readable (netmap_confbuf_consume cb) = xs.tail) := by
  refine ⟨?_, ?_, ?_⟩
  · rcases hpr : netmap_confbuf_pre_read cb 1 with _ | ⟨i, off, g⟩ <;>
      simp [netmap_confbuf_peek, hpr]
  · intro hnil
    subst hnil
    exact pre_read_none_of_readable_nil cb.segs cb.next_r 1 0 hswf.1 hread
  · intro hxs
    obtain ⟨i, off, g, hpr, hg1, hg2, hslice, hswf2, hread2⟩ :=
      pre_read_step 1 hswf hread hxs (le_refl 1)
    have hg : g = 1 := by omega
    subst hg
    refine ⟨?_, hswf2, by rw [netmap_confbuf_consume, hread2, List.drop_one]⟩
    rcases hseg : cb.segs[i]? with _ | d
    · rw [sliceAt, hseg] at hslice
      simp at hslice
      exact absurd hslice hxs
    · rw [sliceAt, hseg] at hslice
      simp only [Option.map_some', Option.getD_some] at hslice
      have h0 : xs[0]? = d.data[off]? := by
        have h := congrArg (fun l : List Nat => l[0]?) hslice
        simp only [List.getElem?_take, if_pos Nat.zero_lt_one] at h
        rw [← h]
        have hh : (d.data.drop off)[0]? = (d.data.drop off).head? := by
          cases d.data.drop off <;> simp
        rw [hh, List.head?_drop]
      rw [netmap_confbuf_peek, hpr]
      simp only [byteAt, hseg, Option.map_some', Option.getD_some]
      rw [List.getD_eq_getElem?_getD, List.getD_eq_getElem?_getD, h0]

/-- C8: on every well-formed read side serving byte stream `xs`, `peek` is
idempotent — it never mutates the buffer, so two peeks without an
intervening `consume` return the same byte; on a non-empty stream `peek`
returns the first byte of `xs`, `consume` removes exactly that byte, a
following `peek` returns the next byte in FIFO order, and if no byte
remains the next `pre_read` reports end-of-stream (the empty region). -/
theorem peek_consume_fifo {cb : Confbuf} {xs : List Nat} (hswf : SWF cb)
    (hread : readable cb = xs) :
    (netmap_confbuf_peek ((netmap_confbuf_peek cb).2)).1 = (netmap_confbuf_peek cb).1 ∧
    (netmap_confbuf_peek cb).2 = cb ∧
    (xs = [] → netmap_confbuf_pre_read cb 1 = none) ∧
    (xs ≠ [] →
      (netmap_confbuf_peek cb).1 = xs.getD 0 0 ∧
      SWF (netmap_confbuf_consume cb) ∧
      readable (netmap_confbuf_consume cb) = xs.tail ∧
      (xs.tail ≠ [] →
        (netmap_confbuf_peek (netmap_confbuf_consume cb)).1 = xs.tail.getD 0 0) ∧
      (xs.tail = [] →
        netmap_confbuf_pre_read (netmap_confbuf_consume cb) 1 = none)) := by
  obtain ⟨hid, hnil, hne⟩ := peek_step hswf hread
  refine ⟨by rw [hid], hid, hnil, ?_⟩
  intro hxs
  obtain ⟨hval, hswf2, hread2⟩ := hne hxs
  obtain ⟨-, hnil2, hne2⟩ := peek_step hswf2 hread2
  exact ⟨hval, hswf2, hread2, fun h => (hne2 h).1, hnil2⟩

theorem peek_consume_fifo_witness :
    SWF (⟨[(⟨2, [7, 8]⟩ : Seg)], 0, some 0, 2, 1⟩ : Confbuf) ∧
    readable ⟨[(⟨2, [7, 8]⟩ : Seg)], 0, some 0, 2, 1⟩ = [7, 8] ∧
    (netmap_confbuf_peek ⟨[(⟨2, [7, 8]⟩ : Seg)], 0, some 0, 2, 1⟩).1 = 7 ∧
    (netmap_confbuf_peek
      (netmap_confbuf_consume ⟨[(⟨2, [7, 8]⟩ : Seg)], 0, some 0, 2, 1⟩)).1 = 8 := by
  have h := @peek_consume_fifo ⟨[(⟨2, [7, 8]⟩ : Seg)], 0, some 0, 2, 1⟩ [7, 8]
    ⟨by decide, by decide⟩ rfl
  refine ⟨⟨by decide, by decide⟩, rfl, ?_, ?_⟩
  · exact (h.2.2.2 (by decide)).1
  · exact (h.2.2.2 (by decide)).2.2.2.1 (by decide)
